import Mathlib

/-!
Verification development for the query-builder library (select/upsert SQL
compiler with filter compilation, identifier normalization and chain-aware
schema routing).

The TypeScript sources are shallowly embedded: JavaScript runtime values are
modelled by the inductive type JsVal; functions that can throw return an
Except String result whose error is the thrown value (the code throws plain
strings; a JavaScript TypeError is modelled by a string tagged "TypeError").
Character case operations (toLowerCase / toUpperCase on basic latin letters)
are modelled by Lean's Char.toLower / Char.toUpper; string comparison is
modelled on unicode scalar values.

External collaborators that are not part of the repository sources
(the pg-format identifier/literal formatter, the humps decamelize pass, and
the constants module) are modelled from the specification; each such
definition carries a doc comment starting with: Modelled from the spec.
-/

namespace QB

/-- Model of a JavaScript runtime value as used by the query builder:
null, undefined, numbers, strings, booleans, arrays and plain objects
(ordered own-enumerable fields; keys are assumed pairwise distinct as in
actual JavaScript objects). -/
inductive JsVal where
  | null : JsVal
  | undef : JsVal
  | num : Int → JsVal
  | str : String → JsVal
  | bool : Bool → JsVal
  | arr : List JsVal → JsVal
  | obj : List (String × JsVal) → JsVal

/-- JavaScript truthiness of a value (NaN is not modelled). -/
def truthy : JsVal → Bool
  | .null => false
  | .undef => false
  | .num n => n != 0
  | .str s => s != ""
  | .bool b => b
  | .arr _ => true
  | .obj _ => true

/-- JavaScript strict equality on values. Primitives compare by value;
two separately constructed arrays or objects are never identical
(reference semantics), so composite comparisons yield false. -/
def strictEq : JsVal → JsVal → Bool
  | .null, .null => true
  | .undef, .undef => true
  | .num a, .num b => a == b
  | .str a, .str b => a == b
  | .bool a, .bool b => a == b
  | _, _ => false

/-- Property read v[key]: the first field of an object with the given key,
undefined otherwise (index properties of strings/arrays are not modelled;
the compiler only reads named properties). -/
def getProp (v : JsVal) (key : String) : JsVal :=
  match v with
  | .obj fields =>
    match fields.lookup key with
    | some x => x
    | none => .undef
  | _ => (.undef)

/-- Model of v.hasOwnProperty(key). -/
def hasProp (v : JsVal) (key : String) : Bool :=
  match v with
  | .obj fields => fields.any (fun e => e.1 == key)
  | _ => false

/-- Own enumerable entries of a value as iterated by for-in / Object.keys:
object fields in order; array elements and string characters under their
index keys; none for primitives. -/
def jsEnumEntries : JsVal → List (String × JsVal)
  | .obj fields => fields
  | .arr xs => xs.enum.map (fun e => (toString e.1, e.2))
  | .str s => s.data.enum.map (fun e => (toString e.1, .str (String.mk [e.2])))
  | _ => []

mutual

/-- Model of String(v) for the values the router converts (chainId.toString());
array rendering joins the rendered elements with commas. -/
def jsToString : JsVal → String
  | .null => "null"
  | .undef => ("undefined")
  | .num n => toString n
  | .str s => s
  | .bool b => if b then "true" else "false"
  | .arr xs => jsToStringList xs
  | .obj _ => "[object Object]"

/-- Comma-joined rendering of array elements for jsToString. -/
def jsToStringList : List JsVal → String
  | [] => ""
  | [x] => jsToString x
  | x :: rest => jsToString x ++ "," ++ jsToStringList rest

end

/-- Join a list of strings with a separator, as JavaScript Array.join does. -/
def joinSep (sep : String) : List String → String
  | [] => ""
  | [s] => s
  | s :: rest => s ++ sep ++ joinSep sep rest

/-- Character-level split: auxiliary accumulator form. -/
def splitOnCharAux (c : Char) : List Char → List Char → List (List Char)
  | [], acc => [acc.reverse]
  | x :: rest, acc =>
    if x = c then acc.reverse :: splitOnCharAux c rest []
    else splitOnCharAux c rest (x :: acc)

/-- Split a character list on a separator character, as JavaScript
String.split with a single-character separator. -/
def splitOnChar (c : Char) (l : List Char) : List (List Char) :=
  splitOnCharAux c l []

/-- Model of s.split with a one-character separator string. -/
def splitOn1 (c : Char) (s : String) : List String :=
  (splitOnChar c s.data).map String.mk

/-- Model of the JavaScript test char === char.toUpperCase() used by
removeAcronymFromCamel (true for every character without a distinct
upper-case form, e.g. digits and punctuation). -/
def jsUpperEq (c : Char) : Bool := c.toUpper == c

/-- Scanning pass of removeAcronymFromCamel: an upper-case-equal character
that is preceded by an upper-case-equal character and followed by another
one (or is last) is lowercased. The first argument is the previous
character of the original string, if any. -/
def removeAcronymAux : Option Char → List Char → List Char
  | _, [] => []
  | prev, c :: rest =>
    let prevUp := match prev with
      | some p => jsUpperEq p
      | none => false
    let nextUp := match rest with
      | [] => true
      | d :: _ => jsUpperEq d
    (if prevUp && jsUpperEq c && nextUp then c.toLower else c) ::
      removeAcronymAux (some c) rest

/-- De-acronym pass of the name normalizer (removeAcronymFromCamel in the
source): folds every capital of an embedded all-caps run, except its leading
letter, to lower case. -/
def removeAcronymFromCamel (s : String) : String :=
  String.mk (removeAcronymAux none s.data)

/-- ASCII upper-case letter test (the character class the decamelize
separator rule matches on). -/
def isUp (c : Char) : Bool := 65 ≤ c.toNat && c.toNat ≤ 90

/-- ASCII lower-case letter test. -/
def isLo (c : Char) : Bool := 97 ≤ c.toNat && c.toNat ≤ 122

/-- ASCII digit test. -/
def isDig (c : Char) : Bool := 48 ≤ c.toNat && c.toNat ≤ 57

/-- Separator-insertion pass of decamelize: a separator is inserted before
each upper-case letter that follows a lower-case letter or a digit of the
original string. -/
def decamelizeAux : Option Char → List Char → List Char
  | _, [] => []
  | prev, c :: rest =>
    let sep := isUp c && (match prev with
      | some p => isLo p || isDig p
      | none => false)
    (if sep then ['_', c] else [c]) ++ decamelizeAux (some c) rest

/-- Modelled from the spec: the external humps.decamelize collaborator
(generic camelCase to snake_case) is absent from the sources; per the spec
it inserts a separator before each remaining upper-case letter that follows
a lower-case letter or digit, then lowercases the whole string. -/
def decamelize (s : String) : String :=
  String.mk ((decamelizeAux none s.data).map Char.toLower)

/-- Name normalizer toSnakeCase (also called toColumnName): the de-acronym
pass followed by decamelization. -/
def toSnakeCase (s : String) : String :=
  decamelize (removeAcronymFromCamel s)

/-- Modelled from the spec: the external pg-format identifier formatter,
which quotes a single identifier per the target dialect's quoting rules. -/
def ident (s : String) : String := "\"" ++ s ++ "\""

/-- Quote a dot-delimited identifier path: split on dots, quote each
segment, re-join with dots (identPath in the source). -/
def identPath (s : String) : String :=
  joinSep (".") ((splitOn1 '.' s).map ident)

/-- Decimal digit character for a value below ten. -/
def digitChar (k : Nat) : Char := Char.ofNat (48 + k)

/-- Fuel-driven decimal rendering: prepends the digits of n to acc.
The fuel only needs to cover the number of digits; callers pass n+1. -/
def natDigitsAux : Nat → Nat → List Char → List Char
  | 0, _, acc => acc
  | fuel + 1, n, acc =>
    if n < 10 then digitChar (n % 10) :: acc
    else natDigitsAux fuel (n / 10) (digitChar (n % 10) :: acc)

/-- Decimal digits of a natural number, most significant first. -/
def natDigits (n : Nat) : List Char := natDigitsAux (n + 1) n []

/-- Decimal string of a natural number (JavaScript number-to-string for the
nonnegative integers the compiler renders). -/
def natStr (n : Nat) : String := String.mk (natDigits n)

/-- Decimal string of an integer. -/
def intStr (n : Int) : String :=
  if n < 0 then "-" ++ natStr n.natAbs else natStr n.toNat

/-- Single-quote doubling for string literals. -/
def sqEscape (s : String) : String :=
  String.mk (s.data.flatMap (fun c => if c = '\'' then [c, c] else [c]))

/-- Modelled from the spec: the external pg-format literal formatter renders
numbers unquoted, strings quoted with escaping, and null as the dialect
null; it is used only for offset/limit/block-range boundaries. Composite
values are rendered as NULL. -/
def literal : JsVal → String
  | .num n => intStr n
  | .str s => "'" ++ sqEscape s ++ "'"
  | .bool b => if b then "true" else "false"
  | _ => "NULL"

/-- Decimal value of a digit list (the number a placeholder token denotes). -/
def natOfDigits (ds : List Char) : Nat :=
  ds.foldl (fun a c => a * 10 + (c.toNat - 48)) 0

/-- Scanner state for placeholder extraction: none when outside a token,
some none right after a dollar sign, some (some n) inside a digit run of
value n. -/
def extractAux : Option (Option Nat) → List Char → List Nat
  | st, [] =>
    match st with
    | some (some n) => [n]
    | _ => []
  | st, c :: rest =>
    match st with
    | some (some n) =>
      if isDig c then extractAux (some (some (n * 10 + (c.toNat - 48)))) rest
      else if c = '$' then n :: extractAux (some none) rest
      else n :: extractAux none rest
    | some none =>
      if isDig c then extractAux (some (some (c.toNat - 48))) rest
      else if c = '$' then extractAux (some none) rest
      else extractAux none rest
    | none =>
      if c = '$' then extractAux (some none) rest else extractAux none rest

/-- The positional placeholder numbers appearing in a character list, in
order: each dollar sign followed by a non-empty maximal digit run counts as
one placeholder with that decimal number. -/
def extractPh (l : List Char) : List Nat := extractAux none l

/-- Absence of the dollar character from a character list. -/
def noDollarL (l : List Char) : Bool := l.all (fun c => c != '$')

/-- Absence of the dollar character from a string. -/
def noDollar (s : String) : Bool := noDollarL s.data

/-- The first character, if any, is not a digit (so a preceding placeholder
token cannot capture it). -/
def HeadNotDigit (b : List Char) : Prop :=
  ∀ c, b.head? = some c → isDig c = false

/-- Placeholder extraction specification of a character list a: appended
before any digit-free-headed continuation, scanning yields the numbers ns
followed by the continuation's own placeholders. -/
def PhExt (a : List Char) (ns : List Nat) : Prop :=
  ∀ b, HeadNotDigit b → extractAux none (a ++ b) = ns ++ extractAux none b

/-- String-level placeholder extraction specification. -/
def PhExtS (s : String) (ns : List Nat) : Prop := PhExt s.data ns

/-- String-level digit-free head. -/
def HeadNotDigitS (s : String) : Prop := HeadNotDigit s.data

/-- Boolean check of the digit-free head condition. -/
def headNotDigitB (s : String) : Bool :=
  match s.data.head? with
  | some c => !(isDig c)
  | none => true

/-- A positional placeholder token for binding index i. -/
def ph (i : Nat) : String := "$" ++ natStr i

/-- Placeholder tokens for k consecutive binding indices starting at i. -/
def phSeq : Nat → Nat → List String
  | 0, _ => []
  | k + 1, i => ph i :: phSeq k (i + 1)

/-- Modelled from the spec: the reserved logical schema name known to the
router (the constants module is absent from the sources). -/
def SPEC_SCHEMA : String := "spec"

/-- Modelled from the spec: the chain-id filter property name known to the
router (the constants module is absent from the sources). -/
def CHAIN_ID_PROPERTY : String := "chainId"

/-- The chain table from chains.ts: chainIdForSchema inverted, mapping a
chain id to its physical schema name. -/
def chainPairs : List (String × String) :=
  [("1", "ethereum"), ("5", "goerli"), ("137", "polygon"),
   ("80001", "mumbai"), ("8453", "base"), ("10", "optimism"),
   ("42161", "arbitrum"), ("424", "pgn"), ("42220", "celo"),
   ("59144", "linea"), ("11155111", "sepolia")]

/-- Lookup of schemaForChainId. -/
def schemaForChainId (id : String) : Option String :=
  chainPairs.lookup id

/-- The sentinel table of the defensive empty-result redirect. -/
def emptyResponseTable : String := "ethereum.blocks"

/-- The sentinel filters of the defensive empty-result redirect. -/
def emptyResponseFilters : List JsVal := [.obj [("number", .num (-1))]]

/-- The enumerated FilterOp values from types.ts. -/
def filterOps : List String := ["=", "!=", ">", ">=", "<", "<=", "in", "not in"]

/-- Does the column path contain a comma (multi-column tuple comparison)? -/
def containsComma (s : String) : Bool := s.data.any (fun c => c == ',')

/-- Array shape test (Array.isArray). -/
def isArrB : JsVal → Bool
  | .arr _ => true
  | _ => false

/-- The column reference of a filter statement: a parenthesized tuple of
quoted column paths for a comma-separated path, a single quoted path
otherwise. -/
def colEntryOf (colPath : String) : String :=
  if containsComma colPath then
    "(" ++ joinSep (", ") ((splitOn1 ',' colPath).map identPath) ++ ")"
  else identPath colPath

/-- Emission step shared by all retained filter entries: one placeholder per
scalar, a parenthesized group of placeholders (one per element) for a list;
returns the statement text, the values pushed, and the next binding index. -/
def emitStmt (colPath : String) (op : String) (value : JsVal) (i : Nat) :
    String × List JsVal × Nat :=
  match value with
  | .arr ys =>
    (colEntryOf colPath ++ " " ++ op ++ " " ++
      ("(" ++ joinSep (", ") (phSeq ys.length i) ++ ")"), ys, i + ys.length)
  | v => (colEntryOf colPath ++ " " ++ op ++ " " ++ ph i, [v], i + 1)

/-- Processing of a single filter entry by buildAndStatement: shape probing,
skip checks, operator determination and emission. A null value reproduces
the JavaScript TypeError of value.op (typeof null is object, and the access
precedes the null check). -/
def andEntry (colPath : String) (value : JsVal) (i : Nat) :
    Except String (Option (String × List JsVal × Nat)) :=
  match value with
  | .null => .error ("TypeError: Cannot read properties of null (reading 'op')")
  | .undef => .ok none
  | .arr xs =>
    if xs.isEmpty then .ok none
    else if xs.any isArrB then .ok none
    else if containsComma colPath then .ok (some (emitStmt colPath ("=") (.arr xs) i))
    else .ok (some (emitStmt colPath ("in") (.arr xs) i))
  | .obj fields =>
    if fields.isEmpty then .ok none
    else if !(truthy (getProp (.obj fields) ("op")) && hasProp (.obj fields) ("value")) then
      .ok none
    else
      match getProp (.obj fields) ("op") with
      | .str s =>
        if filterOps.contains s then
          .ok (some (emitStmt colPath s (getProp (.obj fields) ("value")) i))
        else .ok none
      | _ => .ok none
  | v => .ok (some (emitStmt colPath ("=") v i))

/-- Left-to-right processing of a group's entries, threading the binding
index and collecting statements and pushed values. -/
def buildAndList : List (String × JsVal) → Nat →
    Except String (List String × List JsVal × Nat)
  | [], i => .ok ([], [], i)
  | e :: rest, i =>
    match andEntry e.1 e.2 i with
    | .error err => .error err
    | .ok none => buildAndList rest i
    | .ok (some (stmt, pushed, i₂)) =>
      match buildAndList rest i₂ with
      | .error err => .error err
      | .ok (stmts, vals, i₃) => .ok (stmt :: stmts, pushed ++ vals, i₃)

/-- buildAndStatement from the source: null for a valueless map, otherwise
the entry statements joined with and. Mutation of the values array and
binding counter is modelled by returning the pushed values and next index. -/
def buildAndStatement (filtersMap : JsVal) (i : Nat) :
    Except String (Option String × List JsVal × Nat) :=
  let fields := jsEnumEntries filtersMap
  if fields.isEmpty then .ok (none, [], i)
  else
    match buildAndList fields i with
    | .error err => .error err
    | .ok (stmts, vals, i₂) => .ok (some (joinSep (" and ") stmts), vals, i₂)

/-- The or-group loop of buildSelectQuery: collects each group's non-empty
and-statement, threading the binding index. -/
def buildOrList : List JsVal → Nat →
    Except String (List String × List JsVal × Nat)
  | [], i => .ok ([], [], i)
  | g :: rest, i =>
    match buildAndStatement g i with
    | .error err => .error err
    | .ok (stmtOpt, vals, i₂) =>
      match buildOrList rest i₂ with
      | .error err => .error err
      | .ok (stmts, vals₂, i₃) =>
        match stmtOpt with
        | some s =>
          if s == "" then .ok (stmts, vals ++ vals₂, i₃)
          else .ok (s :: stmts, vals ++ vals₂, i₃)
        | none => .ok (stmts, vals ++ vals₂, i₃)

/-- The orderBy option as supplied by callers. -/
structure OrderBy where
  column : JsVal
  direction : String

/-- SelectOptions from types.ts; option fields are absent or present
(hasOwnProperty is modelled by Option). -/
structure SelectOptions where
  orderBy : Option OrderBy
  offset : Option JsVal
  limit : Option JsVal
  chainId : Option String
  blockRange : Option (List JsVal)

/-- QueryPayload from types.ts; schemaName and tableName are the first two
segments of the dot-split table and may be absent. -/
structure QueryPayload where
  schemaName : Option String
  tableName : Option String
  sql : String
  bindings : List JsVal

/-- The string content of a value expected to be a string (order-by and
returning columns are typed string in the source). -/
def strOf : JsVal → String
  | .str s => s
  | _ => ""

/-- The order-by suffix: emitted only for a truthy column and a direction
belonging to the enumerated set. -/
def orderBySuffix : Option OrderBy → String
  | none => ""
  | some ob =>
    if truthy ob.column && (ob.direction == "asc" || ob.direction == "desc") then
      let cols := match ob.column with
        | .arr xs => xs
        | c => [c]
      " order by (" ++
        joinSep (", ") (cols.map (fun c => identPath (toSnakeCase (strOf c)))) ++
        ") " ++ ob.direction
    else ""

/-- The ordering/paging suffix of addSelectOptionsToQuery; offset and limit
are embedded as literals when present. -/
def optionsSuffix : Option SelectOptions → String
  | none => ""
  | some o =>
    orderBySuffix o.orderBy ++
    (match o.offset with
      | some v => " offset " ++ literal v
      | none => "") ++
    (match o.limit with
      | some v => " limit " ++ literal v
      | none => "")

/-- addSelectOptionsToQuery from the source: appends the ordering/paging
suffix to a query. -/
def addSelectOptionsToQuery (sql : String) (options : Option SelectOptions) : String :=
  sql ++ optionsSuffix options

/-- The effective block range: the supplied one, or empty when absent
(an array is always truthy, so a present range is kept as-is). -/
def blockRangeOf : Option SelectOptions → List JsVal
  | some o =>
    match o.blockRange with
    | some br => br
    | none => []
  | none => []

/-- The chainId option, when options are present. -/
def optChainId : Option SelectOptions → Option String
  | some o => o.chainId
  | none => none

/-- Truthiness of options.chainId (an empty string is falsy). -/
def optChainIdTruthy (o : Option SelectOptions) : Bool :=
  match optChainId o with
  | some s => s != ""
  | none => false

/-- Removal of the chain-id property from a filter group, keeping every
other entry in order. -/
def stripChainId (f : JsVal) : JsVal :=
  .obj ((jsEnumEntries f).filter (fun e => e.1 != CHAIN_ID_PROPERTY))

/-- detectSpecSchemaQuery from the source: the chain schema router. -/
def detectSpecSchemaQuery (table : String) (filters : List JsVal)
    (options : Option SelectOptions) : Except String (String × List JsVal) :=
  let parts := splitOn1 '.' table
  let schemaName := parts.headD ""
  let tableName := (parts.drop 1).headD ""
  if schemaName != SPEC_SCHEMA then .ok (table, filters)
  else if optChainIdTruthy options then
    match schemaForChainId ((optChainId options).getD "") with
    | none => .ok (emptyResponseTable, emptyResponseFilters)
    | some chainSchema => .ok (chainSchema ++ "." ++ tableName, filters)
  else if filters.isEmpty then
    .error ("Filters are required when querying the " ++ SPEC_SCHEMA ++ " schema")
  else
    let chainId := getProp (filters.headD .undef) CHAIN_ID_PROPERTY
    if !truthy chainId then
      .error ("No " ++ CHAIN_ID_PROPERTY ++ " filter included with " ++ SPEC_SCHEMA ++
        " schema query")
    else
      match schemaForChainId (jsToString chainId) with
      | none => .ok (emptyResponseTable, emptyResponseFilters)
      | some chainSchema =>
        if !(filters.all (fun f => strictEq (getProp f CHAIN_ID_PROPERTY) chainId)) then
          .error ("All filters must have equivalent " ++ CHAIN_ID_PROPERTY ++ " properties")
        else
          .ok (chainSchema ++ "." ++ tableName, filters.map stripChainId)

/-- Snake-casing of a group's keys before compilation. -/
def normalizeKeys (f : JsVal) : JsVal :=
  .obj ((jsEnumEntries f).map (fun e => (toSnakeCase e.1, e.2)))

/-- Coercion of the filters argument to a sequence of groups: an array is
used as-is, anything else is wrapped in a singleton. -/
def toGroupList (filters : JsVal) : List JsVal :=
  match filters with
  | .arr xs => xs
  | f => [f]

/-- Combination of a group of statements: a single statement is used
verbatim, several are each parenthesized and joined by the separator. -/
def groupJoin (sep : String) (stmts : List String) : String :=
  if stmts.length > 1 then joinSep sep (stmts.map (fun s => "(" ++ s ++ ")"))
  else stmts.headD ""

/-- The textual block-range statement (literal, non-bound values). -/
def blockRangeStmt (blockRange : List JsVal) : String :=
  ("block_number >= " ++ literal (blockRange.headD .undef)) ++
    (if blockRange.length > 1 then
      " and block_number <= " ++ literal ((blockRange.drop 1).headD .undef)
    else "")

/-- buildSelectQuery from the source (compileSelect): filters are coerced to
a sequence of groups, falsy groups dropped, the router applied, keys
normalized, groups compiled to or-combined and-statements, the block range
and the ordering/paging suffix appended. -/
def buildSelectQuery (table : String) (filters : JsVal)
    (options : Option SelectOptions) : Except String QueryPayload :=
  let blockRange := blockRangeOf options
  let filtersIsArray := match filters with
    | .arr _ => true
    | _ => false
  let filtersIsObject := !filtersIsArray && (match filters with
    | .obj _ => true
    | .null => true
    | _ => false)
  let filterList := (toGroupList filters).filter truthy
  match detectSpecSchemaQuery table filterList options with
  | .error e => .error e
  | .ok (table₂, filterList₂) =>
    let parts := splitOn1 '.' table₂
    let schemaName := parts.head?
    let tableName := (parts.drop 1).head?
    let select := "select * from " ++ identPath table₂
    let filtersIsEmpty := (filtersIsArray || filtersIsObject) && filterList₂.isEmpty
    if filtersIsEmpty && blockRange.isEmpty then
      .ok ⟨schemaName, tableName, addSelectOptionsToQuery select options, []⟩
    else
      match buildOrList (filterList₂.map normalizeKeys) 1 with
      | .error e => .error e
      | .ok (orStatements, values, _) =>
        if orStatements.isEmpty && blockRange.isEmpty then
          .ok ⟨schemaName, tableName, addSelectOptionsToQuery select options, []⟩
        else
          let brStmts : List String :=
            if blockRange.isEmpty then [] else [blockRangeStmt blockRange]
          let orCombined : List String :=
            if orStatements.isEmpty then [] else [groupJoin (" or ") orStatements]
          let whereGroups := brStmts ++ orCombined
          let whereClause := groupJoin (" and ") whereGroups
          let sql := select ++ " where " ++ whereClause
          .ok ⟨schemaName, tableName, addSelectOptionsToQuery sql options, values⟩

/-- Strict lexicographic comparison of character lists on unicode scalar
values (the default JavaScript string comparison of Array.sort). -/
def strLtL : List Char → List Char → Bool
  | [], [] => false
  | [], _ :: _ => true
  | _ :: _, [] => false
  | a :: as, b :: bs =>
    if a.toNat < b.toNat then true
    else if b.toNat < a.toNat then false
    else strLtL as bs

/-- Non-strict string comparison used by the key sort. -/
def strLeB (a b : String) : Bool := !(strLtL b.data a.data)

/-- Ascending sort of key lists, the model of Array.sort() on the first
row's keys (keys are pairwise distinct, so stability is irrelevant). -/
def sortKeys (l : List String) : List String :=
  List.insertionSort (fun a b => strLeB a b = true) l

/-- The own enumerable keys of a value (Object.keys). -/
def objKeys (v : JsVal) : List String := (jsEnumEntries v).map (fun e => e.1)

/-- Truthiness of the returning argument. -/
def retTruthy : Option JsVal → Bool
  | some v => truthy v
  | none => false

/-- Is the returning argument exactly the string star? -/
def retIsAll : Option JsVal → Bool
  | some (.str s) => s == "*"
  | _ => false

/-- The returning argument coerced to a column list. -/
def retCols : Option JsVal → List String
  | some (.arr xs) => xs.map strOf
  | some v => [strOf v]
  | none => []

/-- buildUpsertQuery from the source (compileUpsert): insertion columns are
the first row's keys sorted ascending; bindings are row-major over those
keys; on conflict do nothing or do update set, with the optional timestamp
guard and returning clause. An empty row list reproduces the TypeError of
Object.keys(undefined). -/
def buildUpsertQuery (table : String) (rows : List JsVal)
    (conflictColumns : List String) (updateColumns : List String)
    (primaryTimestampColumn : Option String) (returning : Option JsVal) :
    Except String QueryPayload :=
  match rows with
  | [] => .error ("TypeError: Cannot convert undefined or null to object")
  | r0 :: _ =>
    let insertColNames := sortKeys (objKeys r0)
    if insertColNames.isEmpty then .error ("No values to upsert")
    else
      let parts := splitOn1 '.' table
      let schemaName := parts.head?
      let tableName := (parts.drop 1).head?
      let k := insertColNames.length
      let sql₁ := "insert into " ++ identPath table ++ " (" ++
        joinSep (", ") (insertColNames.map (fun c => ident (toSnakeCase c))) ++ ")"
      let groups := (List.range rows.length).map
        (fun r => "(" ++ joinSep (", ") (phSeq k (1 + r * k)) ++ ")")
      let bindings := rows.flatMap (fun r => insertColNames.map (fun c => getProp r c))
      let sql₂ := sql₁ ++ " values " ++ joinSep (", ") groups ++ " on conflict (" ++
        joinSep (", ") (conflictColumns.map (fun c => ident (toSnakeCase c))) ++ ")"
      if updateColumns.isEmpty then
        .ok ⟨schemaName, tableName, sql₂ ++ " do nothing", bindings⟩
      else
        let updates := updateColumns.map
          (fun c => ident (toSnakeCase c) ++ " = excluded." ++ ident (toSnakeCase c))
        let sql₃ := sql₂ ++ " do update set " ++ joinSep (", ") updates
        let sql₄ := match primaryTimestampColumn with
          | some pt =>
            if pt != "" then
              sql₃ ++ " where " ++ identPath (table ++ "." ++ pt) ++
                " <= excluded." ++ ident pt
            else sql₃
          | none => sql₃
        let sql₅ :=
          if retTruthy returning then
            if retIsAll returning then sql₄ ++ " returning *"
            else sql₄ ++ " returning " ++
              joinSep (", ") ((retCols returning).map (fun c => ident (toSnakeCase c)))
          else sql₄
        .ok ⟨schemaName, tableName, sql₅, bindings⟩

/-- The do-nothing or do-update tail of the upsert statement, including the
optional timestamp guard and returning clause (emitted only on the update
path, as the do-nothing path returns early). -/
def upsertUpdateSql (table : String) (uc : List String) (pt : Option String)
    (ret : Option JsVal) : String :=
  if uc.isEmpty then " do nothing"
  else
    " do update set " ++
      joinSep (", ")
        (uc.map (fun c => ident (toSnakeCase c) ++ " = excluded." ++ ident (toSnakeCase c))) ++
      (match pt with
        | some p =>
          if p != "" then " where " ++ identPath (table ++ "." ++ p) ++ " <= excluded." ++ ident p
          else ""
        | none => "") ++
      (if retTruthy ret then
        if retIsAll ret then " returning *"
        else " returning " ++ joinSep (", ") ((retCols ret).map (fun c => ident (toSnakeCase c)))
      else "")

/-- The complete upsert sql for a given insertion column list. -/
def upsertSql (table : String) (rows : List JsVal) (cc uc : List String)
    (pt : Option String) (ret : Option JsVal) (cols : List String) : String :=
  "insert into " ++ identPath table ++ " (" ++
    joinSep (", ") (cols.map (fun c => ident (toSnakeCase c))) ++ ")" ++
    " values " ++
    joinSep (", ") ((List.range rows.length).map
      (fun r => "(" ++ joinSep (", ") (phSeq cols.length (1 + r * cols.length)) ++ ")")) ++
    " on conflict (" ++ joinSep (", ") (cc.map (fun c => ident (toSnakeCase c))) ++ ")" ++
    upsertUpdateSql table uc pt ret

/-- Dollar-freedom of the option strings that are embedded into sql text:
order-by columns and the rendered literals of offset, limit and the block
range. (Bound values never reach the sql text, so they are unconstrained.) -/
def optsNoDollar : Option SelectOptions → Bool
  | none => true
  | some o =>
    (match o.orderBy with
      | some ob =>
        (match ob.column with
          | .arr xs => xs
          | c => [c]).all (fun c => noDollar (strOf c))
      | none => true) &&
    (match o.offset with
      | some v => noDollar (literal v)
      | none => true) &&
    (match o.limit with
      | some v => noDollar (literal v)
      | none => true) &&
    (match o.blockRange with
      | some br => br.all (fun v => noDollar (literal v))
      | none => true)

/-- Dollar-freedom of every select input that is embedded into sql text:
the table path, the filter keys of every group, and the option strings. -/
def selNoDollar (table : String) (filters : JsVal) (options : Option SelectOptions) : Bool :=
  noDollar table &&
  (toGroupList filters).all (fun g => (jsEnumEntries g).all (fun e => noDollar e.1)) &&
  optsNoDollar options

/-- Dollar-freedom of every upsert input that is embedded into sql text:
the table path, the first row's keys, the conflict, update and returning
columns, and the timestamp column. -/
def upsNoDollar (table : String) (r0 : JsVal) (cc uc : List String)
    (pt : Option String) (ret : Option JsVal) : Bool :=
  noDollar table &&
  (objKeys r0).all noDollar &&
  cc.all noDollar &&
  uc.all noDollar &&
  (match pt with
    | some p => noDollar p
    | none => true) &&
  (match ret with
    | some (.arr xs) => xs.all (fun c => noDollar (strOf c))
    | some v => noDollar (strOf v)
    | none => true)

/-- A chain of statements whose placeholder numbers tile consecutive ranges
starting at i, with the matching values split accordingly; every statement
starts with a non-digit character. -/
def StmtChain : Nat → List String → List JsVal → Prop
  | _, [], vals => vals = []
  | i, s :: rest, vals => ∃ vs₁ vs₂, vals = vs₁ ++ vs₂ ∧
      PhExtS s (List.range' i vs₁.length) ∧
      (∃ c l, s.data = c :: l ∧ isDig c = false) ∧
      StmtChain (i + vs₁.length) rest vs₂

/-- The non-null malformed entry values of the skip rule: undefined, an
empty array, an array containing a nested array, or an object-typed value
with no keys or failing the explicit-filter shape check. (A null value also
belongs to the documented skip list but makes the code throw instead; see
the C8 analysis.) -/
def malformedNonNull : JsVal → Bool
  | .undef => true
  | .arr xs => xs.isEmpty || xs.any isArrB
  | .obj fields =>
    fields.isEmpty ||
      !(truthy (getProp (.obj fields) ("op")) && hasProp (.obj fields) ("value"))
  | _ => false

/-! Character-level facts about the case maps used by the name normalizer. -/

theorem string_mk_data (s : String) : String.mk s.data = s := by
  cases s
  rfl

theorem char_toNat_ofNat {n : Nat} (h : n < 55296) : (Char.ofNat n).toNat = n := by
  have hv : n.isValidChar := Or.inl h
  rw [Char.ofNat, dif_pos hv]
  simp [Char.ofNatAux, Char.toNat, UInt32.toNat]

theorem toLower_of_not_upper {c : Char} (h : ¬(65 ≤ c.toNat ∧ c.toNat ≤ 90)) :
    Char.toLower c = c := by
  rw [Char.toLower, if_neg]
  intro hc
  exact h ⟨hc.1, hc.2⟩

theorem toNat_toLower_of_upper {c : Char} (h1 : 65 ≤ c.toNat) (h2 : c.toNat ≤ 90) :
    (Char.toLower c).toNat = c.toNat + 32 := by
  rw [Char.toLower, if_pos ⟨h1, h2⟩]
  exact char_toNat_ofNat (by omega)

theorem toLower_toLower (c : Char) : Char.toLower (Char.toLower c) = Char.toLower c := by
  by_cases h : 65 ≤ c.toNat ∧ c.toNat ≤ 90
  · have hn : (Char.toLower c).toNat = c.toNat + 32 := toNat_toLower_of_upper h.1 h.2
    exact toLower_of_not_upper (by omega)
  · rw [toLower_of_not_upper h, toLower_of_not_upper h]

theorem isUp_false_of_lower_fixed {c : Char} (h : Char.toLower c = c) : isUp c = false := by
  by_cases hu : 65 ≤ c.toNat ∧ c.toNat ≤ 90
  · exfalso
    have hn : (Char.toLower c).toNat = c.toNat + 32 := toNat_toLower_of_upper hu.1 hu.2
    rw [h] at hn
    omega
  · simp only [isUp]
    rcases Nat.lt_or_ge c.toNat 65 with h1 | h1
    · simp [Nat.not_le_of_lt h1]
    · have h2 : ¬ c.toNat ≤ 90 := fun hle => hu ⟨h1, hle⟩
      simp [h2]

theorem removeAcronymAux_fixed {l : List Char} (h : ∀ c ∈ l, Char.toLower c = c) :
    ∀ prev, removeAcronymAux prev l = l := by
  induction l with
  | nil => intro prev; rfl
  | cons c rest ih =>
    intro prev
    have hc : Char.toLower c = c := h c (List.mem_cons_self c rest)
    have hrest : ∀ d ∈ rest, Char.toLower d = d := fun d hd => h d (List.mem_cons_of_mem c hd)
    simp only [removeAcronymAux]
    rw [ih hrest (some c)]
    split
    · rw [hc]
    · rfl

theorem decamelizeAux_no_upper {l : List Char} (h : ∀ c ∈ l, isUp c = false) :
    ∀ prev, decamelizeAux prev l = l := by
  induction l with
  | nil => intro prev; rfl
  | cons c rest ih =>
    intro prev
    have hc : isUp c = false := h c (List.mem_cons_self c rest)
    have hrest : ∀ d ∈ rest, isUp d = false := fun d hd => h d (List.mem_cons_of_mem c hd)
    simp only [decamelizeAux, hc, Bool.false_and, if_neg]
    rw [ih hrest (some c)]
    simp

theorem map_toLower_fixed {l : List Char} (h : ∀ c ∈ l, Char.toLower c = c) :
    l.map Char.toLower = l := by
  induction l with
  | nil => rfl
  | cons c rest ih =>
    simp only [List.map_cons, h c (List.mem_cons_self c rest),
      ih (fun d hd => h d (List.mem_cons_of_mem c hd))]

theorem toSnakeCase_chars_lower_fixed (s : String) :
    ∀ c ∈ (toSnakeCase s).data, Char.toLower c = c := by
  intro c hc
  simp only [toSnakeCase, decamelize] at hc
  rcases List.mem_map.mp hc with ⟨d, _, rfl⟩
  exact toLower_toLower d

/-- C9: the name normalizer toColumnName (toSnakeCase: the de-acronym pass
followed by decamelization) is idempotent; applying it twice yields the same
result as applying it once, for every input string. -/
theorem toSnakeCase_idempotent (s : String) :
    toSnakeCase (toSnakeCase s) = toSnakeCase s := by
  have hfix := toSnakeCase_chars_lower_fixed s
  have hup : ∀ c ∈ (toSnakeCase s).data, isUp c = false :=
    fun c hc => isUp_false_of_lower_fixed (hfix c hc)
  show decamelize (removeAcronymFromCamel (toSnakeCase s)) = toSnakeCase s
  rw [removeAcronymFromCamel, removeAcronymAux_fixed hfix none, string_mk_data]
  rw [decamelize, decamelizeAux_no_upper hup none, map_toLower_fixed hfix, string_mk_data]

/-! Operator determination (claim C2). -/

theorem getProp_obj_ne_nil {fields : List (String × JsVal)} {key : String} {s : String}
    (h : getProp (.obj fields) key = .str s) : fields ≠ [] := by
  intro hnil
  subst hnil
  simp [getProp, List.lookup] at h

/-- C2: operator determination for retained filter entries. An explicit
filter object uses its declared op when it belongs to the enumerated set,
and is dropped without error on an unknown op; a list value on a path
without a comma gets the in operator; scalar values get the equals
operator; and a comma-separated multi-column path never defaults to in:
a list value there keeps the equals operator and compiles to a
parenthesized tuple of quoted column references compared against a
parenthesized tuple of placeholders. -/
theorem qb_C2_operator_determination :
    (∀ colPath fields s i, getProp (.obj fields) ("op") = .str s → s ≠ "" →
      hasProp (.obj fields) ("value") = true → s ∈ filterOps →
      andEntry colPath (.obj fields) i =
        .ok (some (emitStmt colPath s (getProp (.obj fields) ("value")) i))) ∧
    (∀ colPath fields s i, getProp (.obj fields) ("op") = .str s → s ≠ "" →
      hasProp (.obj fields) ("value") = true → s ∉ filterOps →
      andEntry colPath (.obj fields) i = .ok none) ∧
    (∀ colPath xs i, xs ≠ [] → xs.any isArrB = false → containsComma colPath = false →
      andEntry colPath (.arr xs) i = .ok (some (emitStmt colPath ("in") (.arr xs) i))) ∧
    (∀ colPath i n, andEntry colPath (.num n) i =
      .ok (some (emitStmt colPath ("=") (.num n) i))) ∧
    (∀ colPath s i, andEntry colPath (.str s) i =
      .ok (some (emitStmt colPath ("=") (.str s) i))) ∧
    (∀ colPath b i, andEntry colPath (.bool b) i =
      .ok (some (emitStmt colPath ("=") (.bool b) i))) ∧
    (∀ colPath xs i, xs ≠ [] → xs.any isArrB = false → containsComma colPath = true →
      andEntry colPath (.arr xs) i = .ok (some (emitStmt colPath ("=") (.arr xs) i)) ∧
      emitStmt colPath ("=") (.arr xs) i =
        ("(" ++ joinSep (", ") ((splitOn1 ',' colPath).map identPath) ++ ")" ++ " " ++ "=" ++
          " " ++ ("(" ++ joinSep (", ") (phSeq xs.length i) ++ ")"), xs, i + xs.length)) := by
  refine ⟨?_, ?_, ?_, ?_, ?_, ?_, ?_⟩
  · intro colPath fields s i hop hs hval hin
    have hne : fields ≠ [] := getProp_obj_ne_nil hop
    simp [andEntry, hne, hop, hval, hin, truthy, hs]
  · intro colPath fields s i hop hs hval hin
    have hne : fields ≠ [] := getProp_obj_ne_nil hop
    simp [andEntry, hne, hop, hval, hin, truthy, hs]
  · intro colPath xs i hne hnest hcomma
    simp [andEntry, hne, hnest, hcomma]
  · intro colPath i n
    rfl
  · intro colPath s i
    rfl
  · intro colPath b i
    rfl
  · intro colPath xs i hne hnest hcomma
    refine ⟨by simp [andEntry, hne, hnest, hcomma], ?_⟩
    simp [emitStmt, colEntryOf, hcomma]

/-- Witness for C2 at concrete entries: an explicit op is used, an unknown
op is dropped, a list defaults to in, and a multi-column list keeps the
equals operator with a tuple column reference. -/
theorem qb_C2_witness :
    andEntry ("age") (.obj [("op", .str ">="), ("value", .num 21)]) 1 =
      .ok (some ("\"age\" >= $1", [.num 21], 2)) ∧
    andEntry ("age") (.obj [("op", .str "between"), ("value", .num 21)]) 1 = .ok none ∧
    andEntry ("id") (.arr [.num 1, .num 2]) 1 =
      .ok (some ("\"id\" in ($1, $2)", [.num 1, .num 2], 3)) ∧
    andEntry ("a,b") (.arr [.num 1, .num 2]) 1 =
      .ok (some ("(\"a\", \"b\") = ($1, $2)", [.num 1, .num 2], 3)) := by
  refine ⟨?_, ?_, ?_, ?_⟩
  · have h := qb_C2_operator_determination.1 ("age") [("op", .str ">="), ("value", .num 21)]
      (">=") 1 (by rfl) (by decide) (by rfl) (by decide)
    rw [h]
    rfl
  · exact qb_C2_operator_determination.2.1 ("age") [("op", .str "between"), ("value", .num 21)]
      ("between") 1 (by rfl) (by decide) (by rfl) (by decide)
  · have h := qb_C2_operator_determination.2.2.1 ("id") [.num 1, .num 2] 1
      (List.cons_ne_nil _ _) (by rfl) (by rfl)
    rw [h]
    rfl
  · have h := (qb_C2_operator_determination.2.2.2.2.2.2 ("a,b") [.num 1, .num 2] 1
      (List.cons_ne_nil _ _) (by rfl) (by rfl)).1
    rw [h]
    rfl

/-! Chain schema router (claims C4, C7, C3). -/

/-- C4: for a select against the reserved logical schema with a truthy
options.chainId, a chain id mapped by the chain table rewrites the table to
the physical schema joined with the table name and returns the filters
unchanged; an unmapped chain id does not fail but redirects to the fixed
sentinel table-and-filters pair. -/
theorem qb_C4_router_chainId_option :
    ∀ table filters options s,
      (splitOn1 '.' table).headD ("") = SPEC_SCHEMA →
      optChainId options = some s → s ≠ "" →
      ((∀ cs, schemaForChainId s = some cs →
        detectSpecSchemaQuery table filters options =
          .ok (cs ++ "." ++ ((splitOn1 '.' table).drop 1).headD (""), filters)) ∧
      (schemaForChainId s = none →
        detectSpecSchemaQuery table filters options =
          .ok (emptyResponseTable, emptyResponseFilters))) := by
  intro table filters options s hspec hcid hne
  have htruthy : optChainIdTruthy options = true := by
    simp [optChainIdTruthy, hcid, hne]
  have hgetD : (optChainId options).getD ("") = s := by
    simp [hcid]
  constructor
  · intro cs hcs
    simp [detectSpecSchemaQuery, hspec, htruthy, hgetD, hcs]
    intro hcon
    exact absurd (by simpa using hspec) hcon
  · intro hcs
    simp [detectSpecSchemaQuery, hspec, htruthy, hgetD, hcs]
    intro hcon
    exact absurd (by simpa using hspec) hcon

/-- Witness for C4: chain id 137 routes spec.things to polygon.things with
filters untouched; unknown chain id 999 redirects to the sentinel pair. -/
theorem qb_C4_witness :
    detectSpecSchemaQuery ("spec.things") [.obj [("x", .num 2)]]
        (some ⟨none, none, none, some ("137"), none⟩) =
      .ok ("polygon.things", [.obj [("x", .num 2)]]) ∧
    detectSpecSchemaQuery ("spec.things") [.obj [("x", .num 2)]]
        (some ⟨none, none, none, some ("999"), none⟩) =
      .ok (emptyResponseTable, emptyResponseFilters) := by
  constructor
  · have h := (qb_C4_router_chainId_option ("spec.things") [.obj [("x", .num 2)]]
      (some ⟨none, none, none, some ("137"), none⟩) ("137") (by rfl) (by rfl)
      (by decide)).1 ("polygon") (by rfl)
    rw [h]
    rfl
  · exact (qb_C4_router_chainId_option ("spec.things") [.obj [("x", .num 2)]]
      (some ⟨none, none, none, some ("999"), none⟩) ("999") (by rfl) (by rfl)
      (by decide)).2 (by rfl)

theorem lookup_filter_ne (l : List (String × JsVal)) (key bad : String) (h : key ≠ bad) :
    List.lookup key (l.filter (fun e => e.1 != bad)) = List.lookup key l := by
  induction l with
  | nil => rfl
  | cons e rest ih =>
    rcases e with ⟨k, v⟩
    by_cases hkb : k = bad
    · have hcond : (((k, v).1 != bad)) = false := by simp [hkb]
      rw [List.filter_cons, hcond]
      have hkk : key ≠ k := fun hc => h (hc.trans hkb)
      have hku : (key == k) = false := beq_eq_false_iff_ne.mpr hkk
      simp only [Bool.false_eq_true, if_false, ih, List.lookup, hku]
    · have hcond : (((k, v).1 != bad)) = true := by simp [hkb]
      rw [List.filter_cons, hcond]
      simp only [if_true, List.lookup, ih]

/-- A truthy property read implies the value is an object. -/
theorem obj_of_truthy_getProp {f : JsVal} {key : String}
    (h : truthy (getProp f key) = true) : ∃ fields, f = JsVal.obj fields := by
  cases f with
  | obj fields => exact ⟨fields, rfl⟩
  | null => simp [getProp, truthy] at h
  | undef => simp [getProp, truthy] at h
  | num n => simp [getProp, truthy] at h
  | str s => simp [getProp, truthy] at h
  | bool b => simp [getProp, truthy] at h
  | arr xs => simp [getProp, truthy] at h

/-- Strict equality to a truthy value is never satisfied by undefined. -/
theorem strictEq_truthy_not_undef {v : JsVal} (h : truthy v = true) :
    strictEq JsVal.undef v = false := by
  cases v <;> simp_all [strictEq, truthy]

/-- C7: when the router resolves the chain id from the filter groups of a
logical-schema select (no truthy options.chainId) and all groups carry the
same recognized chain id, it rewrites the table to the mapped physical
schema and removes the chain-id property from every group; every other key
of every group keeps its value. -/
theorem qb_C7_router_strips_chainId :
    ∀ table filters options f₀ rest cs,
      (splitOn1 '.' table).headD ("") = SPEC_SCHEMA →
      optChainIdTruthy options = false →
      filters = f₀ :: rest →
      truthy (getProp f₀ CHAIN_ID_PROPERTY) = true →
      schemaForChainId (jsToString (getProp f₀ CHAIN_ID_PROPERTY)) = some cs →
      filters.all (fun f =>
        strictEq (getProp f CHAIN_ID_PROPERTY) (getProp f₀ CHAIN_ID_PROPERTY)) = true →
      detectSpecSchemaQuery table filters options =
        .ok (cs ++ "." ++ ((splitOn1 '.' table).drop 1).headD (""),
          filters.map stripChainId) ∧
      (∀ f ∈ filters, ∀ key, key ≠ CHAIN_ID_PROPERTY →
        getProp (stripChainId f) key = getProp f key) := by
  intro table filters options f₀ rest cs hspec hnocid hfl htruthy hcs hall
  constructor
  · have hhead : filters.headD .undef = f₀ := by
      rw [hfl]
      rfl
    have hnonempty : filters.isEmpty = false := by
      rw [hfl]
      rfl
    simp only [detectSpecSchemaQuery, hspec, hnocid, hhead, hnonempty, htruthy, hcs, hall]
    simp
  · intro f hf key hkey
    have hftruthy : truthy (getProp f CHAIN_ID_PROPERTY) = true := by
      have := List.all_eq_true.mp hall f hf
      rcases hv : getProp f CHAIN_ID_PROPERTY with _ | _ | n | s | b | xs | fl <;>
        rcases hw : getProp f₀ CHAIN_ID_PROPERTY with _ | _ | m | t | c | ys | gl <;>
          rw [hv, hw] at this <;> rw [hw] at htruthy <;> simp_all [strictEq, truthy]
    rcases obj_of_truthy_getProp hftruthy with ⟨fields, rfl⟩
    simp only [stripChainId, jsEnumEntries, getProp]
    rw [lookup_filter_ne fields key CHAIN_ID_PROPERTY hkey]

/-- Witness for C7: two groups with chain id 1 route to the ethereum schema
and lose exactly their chainId entry. -/
theorem qb_C7_witness :
    detectSpecSchemaQuery ("spec.things")
        [.obj [("chainId", .str "1"), ("x", .num 2)], .obj [("chainId", .str "1")]]
        none =
      .ok ("ethereum.things", [.obj [("x", .num 2)], .obj []]) ∧
    getProp (stripChainId (.obj [("chainId", .str "1"), ("x", .num 2)])) ("x") =
      getProp (.obj [("chainId", .str "1"), ("x", .num 2)]) ("x") := by
  have h := qb_C7_router_strips_chainId ("spec.things")
    [.obj [("chainId", .str "1"), ("x", .num 2)], .obj [("chainId", .str "1")]]
    none (.obj [("chainId", .str "1"), ("x", .num 2)]) [.obj [("chainId", .str "1")]]
    ("ethereum") (by rfl) (by rfl) (by rfl) (by rfl) (by rfl) (by rfl)
  constructor
  · rw [h.1]
    rfl
  · exact h.2 (.obj [("chainId", .str "1"), ("x", .num 2)])
      (by simp) ("x") (by decide)

theorem detect_inconsistent_error :
    ∀ table filters options f₀ rest cs,
      (splitOn1 '.' table).headD ("") = SPEC_SCHEMA →
      optChainIdTruthy options = false →
      filters = f₀ :: rest →
      truthy (getProp f₀ CHAIN_ID_PROPERTY) = true →
      schemaForChainId (jsToString (getProp f₀ CHAIN_ID_PROPERTY)) = some cs →
      filters.all (fun f =>
        strictEq (getProp f CHAIN_ID_PROPERTY) (getProp f₀ CHAIN_ID_PROPERTY)) = false →
      detectSpecSchemaQuery table filters options =
        .error ("All filters must have equivalent " ++ CHAIN_ID_PROPERTY ++ " properties") := by
  intro table filters options f₀ rest cs hspec hnocid hfl htruthy hcs hall
  have hhead : filters.headD .undef = f₀ := by
    rw [hfl]
    rfl
  have hnonempty : filters.isEmpty = false := by
    rw [hfl]
    rfl
  simp only [detectSpecSchemaQuery, hspec, hnocid, hhead, hnonempty, htruthy, hcs, hall]
  simp

/-- C3 counterexample: a logical-schema select without options.chainId whose
two groups carry different chain ids, the first of which is not in the chain
table, does not fail: it compiles to the sentinel zero-row query instead of
raising the inconsistency error. -/
theorem qb_C3_counterexample :
    buildSelectQuery ("spec.things")
        (.arr [.obj [("chainId", .str "999")], .obj [("chainId", .str "1")]]) none =
      .ok ⟨some ("ethereum"), some ("blocks"),
        "select * from \"ethereum\".\"blocks\" where \"number\" = $1", [.num (-1)]⟩ ∧
    (∀ e, buildSelectQuery ("spec.things")
        (.arr [.obj [("chainId", .str "999")], .obj [("chainId", .str "1")]]) none ≠
      .error e) := by
  have hok : buildSelectQuery ("spec.things")
      (.arr [.obj [("chainId", .str "999")], .obj [("chainId", .str "1")]]) none =
    .ok ⟨some ("ethereum"), some ("blocks"),
      "select * from \"ethereum\".\"blocks\" where \"number\" = $1", [.num (-1)]⟩ := rfl
  refine ⟨hok, fun e h => ?_⟩
  rw [hok] at h
  exact Except.noConfusion h

/-- C3 amended: for a select against the reserved logical schema compiled
without a truthy options.chainId, where the effective filter groups are
non-empty, the first group carries a truthy chain-id value, and that value
is recognized by the chain table, compilation fails with the inconsistency
error whenever the groups do not all carry the same value for the chain-id
property. (The recognition premise is forced by the code: an unrecognized
first chain id redirects to the sentinel query before the consistency
check.) -/
theorem qb_C3_inconsistent_error :
    ∀ table gs options f₀ rest cs,
      (splitOn1 '.' table).headD ("") = SPEC_SCHEMA →
      optChainIdTruthy options = false →
      gs.filter truthy = f₀ :: rest →
      truthy (getProp f₀ CHAIN_ID_PROPERTY) = true →
      schemaForChainId (jsToString (getProp f₀ CHAIN_ID_PROPERTY)) = some cs →
      (gs.filter truthy).all (fun f =>
        strictEq (getProp f CHAIN_ID_PROPERTY) (getProp f₀ CHAIN_ID_PROPERTY)) = false →
      buildSelectQuery table (.arr gs) options =
        .error ("All filters must have equivalent " ++ CHAIN_ID_PROPERTY ++ " properties") := by
  intro table gs options f₀ rest cs hspec hnocid hfl htruthy hcs hall
  have hdet := detect_inconsistent_error table (gs.filter truthy) options f₀ rest cs
    hspec hnocid hfl htruthy hcs hall
  simp only [buildSelectQuery, toGroupList, hdet]

/-! Malformed filter entries (claim C8). -/

theorem andEntry_skip {v : JsVal} (h : malformedNonNull v = true) :
    ∀ colPath i, andEntry colPath v i = .ok none := by
  intro colPath i
  cases v with
  | undef => rfl
  | null => simp [malformedNonNull] at h
  | num n => simp [malformedNonNull] at h
  | str s => simp [malformedNonNull] at h
  | bool b => simp [malformedNonNull] at h
  | arr xs =>
    simp only [malformedNonNull, Bool.or_eq_true] at h
    rcases h with h | h
    · simp [andEntry, h]
    · simp [andEntry, h]
  | obj fields =>
    simp only [malformedNonNull, Bool.or_eq_true] at h
    rcases h with h | h
    · simp [andEntry, h]
    · by_cases hemp : fields.isEmpty
      · simp [andEntry, hemp]
      · simp [andEntry, hemp, h]

theorem buildAndList_all_skip {fields : List (String × JsVal)}
    (h : ∀ e ∈ fields, malformedNonNull e.2 = true) :
    ∀ i, buildAndList fields i = .ok ([], [], i) := by
  induction fields with
  | nil => intro i; rfl
  | cons e rest ih =>
    intro i
    have he := h e (List.mem_cons_self e rest)
    simp only [buildAndList, andEntry_skip he]
    exact ih (fun d hd => h d (List.mem_cons_of_mem e hd)) i

theorem buildOrList_all_skip {gs : List JsVal}
    (h : ∀ g ∈ gs, ∀ e ∈ jsEnumEntries g, malformedNonNull e.2 = true) :
    ∀ i, buildOrList (gs.map normalizeKeys) i = .ok ([], [], i) := by
  induction gs with
  | nil => intro i; rfl
  | cons g rest ih =>
    intro i
    have hg : ∀ e ∈ jsEnumEntries (normalizeKeys g), malformedNonNull e.2 = true := by
      intro e he
      simp only [normalizeKeys, jsEnumEntries, List.mem_map] at he
      rcases he with ⟨d, hd, rfl⟩
      exact h g (List.mem_cons_self g rest) d hd
    by_cases hemp : (jsEnumEntries (normalizeKeys g)).isEmpty
    · have hand : buildAndStatement (normalizeKeys g) i = .ok (none, [], i) := by
        simp [buildAndStatement, hemp]
      simp only [List.map_cons, buildOrList, hand]
      rw [ih (fun d hd => h d (List.mem_cons_of_mem g hd)) i]
      rfl
    · have hand : buildAndStatement (normalizeKeys g) i = .ok (some "", [], i) := by
        simp only [buildAndStatement]
        rw [if_neg (by simpa using hemp)]
        rw [buildAndList_all_skip hg i]
        rfl
      simp only [List.map_cons, buildOrList, hand]
      rw [ih (fun d hd => h d (List.mem_cons_of_mem g hd)) i]
      rfl

theorem detect_not_spec {table : String} (filters : List JsVal)
    (options : Option SelectOptions)
    (h : (splitOn1 '.' table).headD ("") ≠ SPEC_SCHEMA) :
    detectSpecSchemaQuery table filters options = .ok (table, filters) := by
  simp [detectSpecSchemaQuery, h]
  intro hcon
  exact absurd hcon (by simpa using h)

/-- C8 (code bug): the claim says a filter map with all entries malformed
compiles to the unfiltered select without error. This holds for every
malformed value except null (first conjunct family), but a null entry value
makes the compiler throw a TypeError: typeof null is object, so the
explicit-filter probe reads value.op before the null skip-check, which is
unreachable for null. The first conjunct evaluates the failing input; the
second proves the claim for groups whose entries are all malformed with
non-null values (including the empty-group case). -/
theorem qb_C8_malformed_filters :
    (buildSelectQuery ("public.users") (.obj [("a", .null)]) none =
      .error ("TypeError: Cannot read properties of null (reading 'op')")) ∧
    (∀ table filters options,
      (splitOn1 '.' table).headD ("") ≠ SPEC_SCHEMA →
      blockRangeOf options = [] →
      (∀ g ∈ (toGroupList filters).filter truthy,
        ∀ e ∈ jsEnumEntries g, malformedNonNull e.2 = true) →
      buildSelectQuery table filters options =
        .ok ⟨(splitOn1 '.' table).head?, ((splitOn1 '.' table).drop 1).head?,
          addSelectOptionsToQuery ("select * from " ++ identPath table) options, []⟩) := by
  constructor
  · rfl
  · intro table filters options hspec hbr hmal
    have hdet := detect_not_spec ((toGroupList filters).filter truthy) options hspec
    have hor := buildOrList_all_skip hmal 1
    have hbr' : blockRangeOf options = [] := hbr
    simp only [buildSelectQuery, hdet, hor, hbr']
    simp

/-- Witness for C8: a single group whose only entry is undefined compiles to
the unfiltered select with empty bindings. -/
theorem qb_C8_witness :
    buildSelectQuery ("public.users") (.obj [("a", .undef)]) none =
      .ok ⟨some ("public"), some ("users"),
        "select * from \"public\".\"users\"", []⟩ := by
  have h := qb_C8_malformed_filters.2 ("public.users") (.obj [("a", .undef)]) none
    (by decide) (by rfl) (by decide)
  rw [h]
  rfl

/-- Witness for the amended C3: two groups with recognized but different
chain ids raise the inconsistency error. -/
theorem qb_C3_witness :
    buildSelectQuery ("spec.things")
        (.arr [.obj [("chainId", .str "1")], .obj [("chainId", .str "137")]]) none =
      .error ("All filters must have equivalent chainId properties") :=
  qb_C3_inconsistent_error ("spec.things")
    [.obj [("chainId", .str "1")], .obj [("chainId", .str "137")]] none
    (.obj [("chainId", .str "1")]) [.obj [("chainId", .str "137")]] ("ethereum")
    (by rfl) (by rfl) (by rfl) (by rfl) (by rfl) (by rfl)

/-! The upsert compiler (claims C5, C6, C10). -/

theorem strLtL_asymm : ∀ as bs, strLtL as bs = true → strLtL bs as = false := by
  intro as
  induction as with
  | nil =>
    intro bs h
    cases bs with
    | nil => simp [strLtL] at h
    | cons b bs => rfl
  | cons a as ih =>
    intro bs h
    cases bs with
    | nil => simp [strLtL] at h
    | cons b bs =>
      simp only [strLtL] at h ⊢
      by_cases h1 : a.toNat < b.toNat
      · rw [if_neg (by omega), if_pos h1]
      · by_cases h2 : b.toNat < a.toNat
        · rw [if_neg h1, if_pos h2] at h
          exact absurd h (by simp)
        · rw [if_neg h1, if_neg h2] at h
          rw [if_neg h2, if_neg h1]
          exact ih bs h

theorem strLtL_neg_trans :
    ∀ as bs cs, strLtL bs as = false → strLtL cs bs = false → strLtL cs as = false := by
  intro as
  induction as with
  | nil =>
    intro bs cs h1 h2
    cases cs with
    | nil => rfl
    | cons c cs => rfl
  | cons a as ih =>
    intro bs cs h1 h2
    cases bs with
    | nil => simp [strLtL] at h1
    | cons b bs =>
      cases cs with
      | nil => simp [strLtL] at h2
      | cons c cs =>
        simp only [strLtL] at h1 h2 ⊢
        by_cases hba : b.toNat < a.toNat
        · rw [if_pos hba] at h1
          exact absurd h1 (by simp)
        · by_cases hcb : c.toNat < b.toNat
          · rw [if_pos hcb] at h2
            exact absurd h2 (by simp)
          · by_cases hca : c.toNat < a.toNat
            · exact absurd hca (by omega)
            · rw [if_neg hca]
              by_cases hac : a.toNat < c.toNat
              · rw [if_pos hac]
              · rw [if_neg hac]
                have hab : ¬ a.toNat < b.toNat := by omega
                have hbc : ¬ b.toNat < c.toNat := by omega
                rw [if_neg hba, if_neg hab] at h1
                rw [if_neg hcb, if_neg hbc] at h2
                exact ih bs cs h1 h2

theorem strLeB_total : ∀ a b : String, strLeB a b = true ∨ strLeB b a = true := by
  intro a b
  by_cases h : strLtL b.data a.data = true
  · right
    simp only [strLeB, strLtL_asymm _ _ h, Bool.not_false]
  · left
    simp only [strLeB, Bool.not_eq_true] at h ⊢
    simp [h]

theorem strLeB_trans :
    ∀ a b c : String, strLeB a b = true → strLeB b c = true → strLeB a c = true := by
  intro a b c hab hbc
  simp only [strLeB, Bool.not_eq_true', Bool.not_eq_eq_eq_not] at hab hbc ⊢
  simp only [Bool.not_true] at hab hbc ⊢
  exact strLtL_neg_trans a.data b.data c.data hab hbc

theorem sortKeys_sorted (l : List String) :
    List.Pairwise (fun a b => strLeB a b = true) (sortKeys l) :=
  @List.sorted_insertionSort String (fun a b => strLeB a b = true)
    (fun _ _ => inferInstance) ⟨strLeB_total⟩
    ⟨fun a b c hab hbc => strLeB_trans a b c hab hbc⟩ l

theorem sortKeys_perm (l : List String) : (sortKeys l).Perm l :=
  List.perm_insertionSort (fun a b => strLeB a b = true) l

theorem buildUpsertQuery_eq :
    ∀ table r0 rest cc uc pt ret,
      sortKeys (objKeys r0) ≠ [] →
      buildUpsertQuery table (r0 :: rest) cc uc pt ret =
        .ok ⟨(splitOn1 '.' table).head?, ((splitOn1 '.' table).drop 1).head?,
          upsertSql table (r0 :: rest) cc uc pt ret (sortKeys (objKeys r0)),
          (r0 :: rest).flatMap
            (fun r => (sortKeys (objKeys r0)).map (fun c => getProp r c))⟩ := by
  intro table r0 rest cc uc pt ret hne
  have hemp : (sortKeys (objKeys r0)).isEmpty = false := by
    simpa [List.isEmpty_iff] using hne
  by_cases hu : uc.isEmpty
  · simp [buildUpsertQuery, hemp, hu, upsertSql, upsertUpdateSql, String.append_assoc]
  · by_cases hrt : retTruthy ret
    · by_cases hra : retIsAll ret
      · rcases pt with _ | p
        · simp [buildUpsertQuery, hemp, hu, hrt, hra, upsertSql, upsertUpdateSql,
            String.append_assoc]
          try rfl
        · by_cases hp : (p != "") = true
          · simp [buildUpsertQuery, hemp, hu, hrt, hra, hp, upsertSql, upsertUpdateSql,
              String.append_assoc]
            try rfl
          · simp only [Bool.not_eq_true] at hp
            simp [buildUpsertQuery, hemp, hu, hrt, hra, hp, upsertSql, upsertUpdateSql,
              String.append_assoc]
            try rfl
      · rcases pt with _ | p
        · simp [buildUpsertQuery, hemp, hu, hrt, hra, upsertSql, upsertUpdateSql,
            String.append_assoc]
          try rfl
        · by_cases hp : (p != "") = true
          · simp [buildUpsertQuery, hemp, hu, hrt, hra, hp, upsertSql, upsertUpdateSql,
              String.append_assoc]
            try rfl
          · simp only [Bool.not_eq_true] at hp
            simp [buildUpsertQuery, hemp, hu, hrt, hra, hp, upsertSql, upsertUpdateSql,
              String.append_assoc]
            try rfl
    · rcases pt with _ | p
      · simp [buildUpsertQuery, hemp, hu, hrt, upsertSql, upsertUpdateSql,
          String.append_assoc]
        try rfl
      · by_cases hp : (p != "") = true
        · simp [buildUpsertQuery, hemp, hu, hrt, hp, upsertSql, upsertUpdateSql,
            String.append_assoc]
          try rfl
        · simp only [Bool.not_eq_true] at hp
          simp [buildUpsertQuery, hemp, hu, hrt, hp, upsertSql, upsertUpdateSql,
            String.append_assoc]
          try rfl

/-- C5: for every upsert, the insertion column list is the first row's
enumerable keys sorted ascending (lexicographically on scalar values), then
normalized to snake case and quoted; the bindings are row-major, with row
r's values occupying a contiguous block in that fixed column order and rows
processed in input order. -/
theorem qb_C5_upsert_columns :
    ∀ table r0 rest cc uc pt ret,
      sortKeys (objKeys r0) ≠ [] →
      ∃ p tail,
        buildUpsertQuery table (r0 :: rest) cc uc pt ret = .ok p ∧
        p.sql = "insert into " ++ identPath table ++ " (" ++
          joinSep (", ")
            ((sortKeys (objKeys r0)).map (fun c => ident (toSnakeCase c))) ++ ")" ++ tail ∧
        p.bindings = (r0 :: rest).flatMap
          (fun r => (sortKeys (objKeys r0)).map (fun c => getProp r c)) ∧
        List.Pairwise (fun a b => strLeB a b = true) (sortKeys (objKeys r0)) ∧
        (sortKeys (objKeys r0)).Perm (objKeys r0) := by
  intro table r0 rest cc uc pt ret hne
  refine ⟨_, " values " ++
      joinSep (", ") ((List.range (r0 :: rest).length).map
        (fun r => "(" ++ joinSep (", ") (phSeq (sortKeys (objKeys r0)).length
          (1 + r * (sortKeys (objKeys r0)).length)) ++ ")")) ++
      " on conflict (" ++ joinSep (", ") (cc.map (fun c => ident (toSnakeCase c))) ++ ")" ++
      upsertUpdateSql table uc pt ret,
    buildUpsertQuery_eq table r0 rest cc uc pt ret hne, ?_, rfl,
    sortKeys_sorted _, sortKeys_perm _⟩
  simp [upsertSql, String.append_assoc]
  try rfl

/-- Witness for C5 at the specification's worked example: fullName is
normalized to full_name, columns are sorted, and bindings follow the sorted
column order. -/
theorem qb_C5_witness :
    (∃ p tail,
      buildUpsertQuery ("public.users") [.obj [("id", .num 1), ("fullName", .str "A")]]
          ["id"] ["fullName"] none none = .ok p ∧
      p.sql = "insert into " ++ identPath ("public.users") ++ " (" ++
        joinSep (", ")
          ((sortKeys (objKeys (.obj [("id", .num 1), ("fullName", .str "A")]))).map
            (fun c => ident (toSnakeCase c))) ++ ")" ++ tail ∧
      p.bindings = [JsVal.obj [("id", .num 1), ("fullName", .str "A")]].flatMap
        (fun r => (sortKeys (objKeys (.obj [("id", .num 1), ("fullName", .str "A")]))).map
          (fun c => getProp r c)) ∧
      List.Pairwise (fun a b => strLeB a b = true)
        (sortKeys (objKeys (.obj [("id", .num 1), ("fullName", .str "A")]))) ∧
      (sortKeys (objKeys (.obj [("id", .num 1), ("fullName", .str "A")]))).Perm
        (objKeys (.obj [("id", .num 1), ("fullName", .str "A")]))) ∧
    buildUpsertQuery ("public.users") [.obj [("id", .num 1), ("fullName", .str "A")]]
        ["id"] ["fullName"] none none =
      .ok ⟨some ("public"), some ("users"),
        "insert into \"public\".\"users\" (\"full_name\", \"id\") values ($1, $2) on conflict (\"id\") do update set \"full_name\" = excluded.\"full_name\"",
        [.str "A", .num 1]⟩ :=
  ⟨qb_C5_upsert_columns ("public.users") (.obj [("id", .num 1), ("fullName", .str "A")])
    [] ["id"] ["fullName"] none none (by decide), rfl⟩

/-- C6: for every upsert with non-empty updateColumns and a non-empty
primaryTimestampColumn, the compiled sql appends to the do-update clause a
where guard comparing the table-qualified timestamp column against the
excluded row's column. -/
theorem qb_C6_timestamp_guard :
    ∀ table r0 rest cc uc ret pt p,
      sortKeys (objKeys r0) ≠ [] → uc ≠ [] → pt ≠ "" →
      buildUpsertQuery table (r0 :: rest) cc uc (some pt) ret = .ok p →
      ∃ A, p.sql = A ++ " do update set " ++
        joinSep (", ")
          (uc.map (fun c => ident (toSnakeCase c) ++ " = excluded." ++ ident (toSnakeCase c))) ++
        (" where " ++ identPath (table ++ "." ++ pt) ++ " <= excluded." ++ ident pt) ++
        (if retTruthy ret then
          if retIsAll ret then " returning *"
          else " returning " ++
            joinSep (", ") ((retCols ret).map (fun c => ident (toSnakeCase c)))
        else "") := by
  intro table r0 rest cc uc ret pt p hkeys huc hpt hok
  rw [buildUpsertQuery_eq table r0 rest cc uc (some pt) ret hkeys] at hok
  have hp := (Except.ok.inj hok).symm
  subst hp
  have hu : uc.isEmpty = false := by
    simpa [List.isEmpty_iff] using huc
  have hp' : (pt != "") = true := by
    simpa using hpt
  refine ⟨"insert into " ++ identPath table ++ " (" ++
    joinSep (", ")
      ((sortKeys (objKeys r0)).map (fun c => ident (toSnakeCase c))) ++ ")" ++
    " values " ++
    joinSep (", ") ((List.range (r0 :: rest).length).map
      (fun r => "(" ++ joinSep (", ") (phSeq (sortKeys (objKeys r0)).length
        (1 + r * (sortKeys (objKeys r0)).length)) ++ ")")) ++
    " on conflict (" ++ joinSep (", ") (cc.map (fun c => ident (toSnakeCase c))) ++ ")", ?_⟩
  simp [upsertSql, upsertUpdateSql, hu, hp', String.append_assoc]
  try rfl

/-- Witness for C6: a one-row upsert with an update column and timestamp
column carries the monotonic-write guard. -/
theorem qb_C6_witness :
    ∃ A, (QueryPayload.mk (some ("public")) (some ("users"))
        ("insert into \"public\".\"users\" (\"id\", \"ts\") values ($1, $2) on conflict (\"id\") do update set \"ts\" = excluded.\"ts\" where \"public\".\"users\".\"ts\" <= excluded.\"ts\"")
        [.num 7, .num 9]).sql = A ++ " do update set " ++
      joinSep (", ")
        ((["ts"] : List String).map
          (fun c => ident (toSnakeCase c) ++ " = excluded." ++ ident (toSnakeCase c))) ++
      (" where " ++ identPath ("public.users" ++ "." ++ "ts") ++ " <= excluded." ++ ident ("ts")) ++
      (if retTruthy none then
        if retIsAll none then " returning *"
        else " returning " ++
          joinSep (", ") ((retCols none).map (fun c => ident (toSnakeCase c)))
      else "") :=
  qb_C6_timestamp_guard ("public.users") (.obj [("id", .num 7), ("ts", .num 9)]) []
    ["id"] ["ts"] none ("ts")
    (QueryPayload.mk (some ("public")) (some ("users"))
      ("insert into \"public\".\"users\" (\"id\", \"ts\") values ($1, $2) on conflict (\"id\") do update set \"ts\" = excluded.\"ts\" where \"public\".\"users\".\"ts\" <= excluded.\"ts\"")
      [.num 7, .num 9])
    (by decide) (by decide) (by decide) (by rfl)

theorem lookup_eq_none_of_any_false {fields : List (String × JsVal)} {c : String}
    (h : fields.any (fun e => e.1 == c) = false) : List.lookup c fields = none := by
  induction fields with
  | nil => rfl
  | cons e rest ih =>
    simp only [List.any_cons, Bool.or_eq_false_iff] at h
    have hck : (c == e.1) = false := by
      rcases h with ⟨h1, _⟩
      rw [beq_eq_false_iff_ne] at h1 ⊢
      exact fun hc => h1 hc.symm
    simp [List.lookup, hck, ih h.2]

/-- A property absent from a value reads as undefined. -/
theorem getProp_undef_of_not_hasProp {r : JsVal} {c : String}
    (h : hasProp r c = false) : getProp r c = .undef := by
  cases r with
  | obj fields =>
    simp only [hasProp] at h
    simp [getProp, lookup_eq_none_of_any_false h]
  | null => rfl
  | undef => rfl
  | num n => rfl
  | str s => rfl
  | bool b => rfl
  | arr xs => rfl

theorem flatMap_cols_length (cols : List String) (rows : List JsVal) :
    (rows.flatMap (fun r => cols.map (fun c => getProp r c))).length =
      rows.length * cols.length := by
  induction rows with
  | nil => simp
  | cons r rs ih =>
    simp only [List.flatMap_cons, List.length_append, List.length_map, ih,
      List.length_cons]
    ring

theorem flatMap_cols_getElem (cols : List String) :
    ∀ (rows : List JsVal) ri ci, ri < rows.length → ci < cols.length →
      (rows.flatMap (fun r => cols.map (fun c => getProp r c)))[ri * cols.length + ci]? =
        some (getProp ((rows[ri]?).getD .undef) ((cols[ci]?).getD (""))) := by
  intro rows
  induction rows with
  | nil =>
    intro ri ci hri hci
    exact absurd hri (by simp)
  | cons r rs ih =>
    intro ri ci hri hci
    cases ri with
    | zero =>
      simp only [List.flatMap_cons, Nat.zero_mul, Nat.zero_add]
      rw [List.getElem?_append, if_pos (by simpa using hci), List.getElem?_map,
        List.getElem?_eq_getElem hci]
      simp [List.getElem?_eq_getElem hci]
    | succ n =>
      have hlen : (cols.map (fun c => getProp r c)).length = cols.length := by simp
      have hle : (cols.map (fun c => getProp r c)).length ≤ (n + 1) * cols.length + ci := by
        rw [hlen, Nat.succ_mul]
        omega
      rw [List.flatMap_cons, List.getElem?_append_right hle]
      have hidx : (n + 1) * cols.length + ci - (cols.map (fun c => getProp r c)).length =
          n * cols.length + ci := by
        rw [hlen]
        have : (n + 1) * cols.length = n * cols.length + cols.length := by ring
        omega
      rw [hidx, ih n ci (by simpa using hri) hci]
      simp

/-- C10: buildUpsertQuery never inspects rows after the first for their key
sets: compilation succeeds for every shape of later rows, the bindings form
a rows-by-columns grid indexed by the first row's sorted keys, and a row
lacking such a key contributes an undefined binding (keys present only in
later rows never appear). -/
theorem qb_C10_rows_after_first :
    ∀ table r0 rest cc uc pt ret,
      sortKeys (objKeys r0) ≠ [] →
      ∃ p, buildUpsertQuery table (r0 :: rest) cc uc pt ret = .ok p ∧
        p.bindings.length = (r0 :: rest).length * (sortKeys (objKeys r0)).length ∧
        (∀ ri ci, ri < (r0 :: rest).length → ci < (sortKeys (objKeys r0)).length →
          p.bindings[ri * (sortKeys (objKeys r0)).length + ci]? =
            some (getProp (((r0 :: rest)[ri]?).getD .undef)
              (((sortKeys (objKeys r0))[ci]?).getD ("")))) ∧
        (∀ r c, hasProp r c = false → getProp r c = .undef) := by
  intro table r0 rest cc uc pt ret hne
  refine ⟨_, buildUpsertQuery_eq table r0 rest cc uc pt ret hne,
    flatMap_cols_length _ _, ?_, fun r c h => getProp_undef_of_not_hasProp h⟩
  intro ri ci hri hci
  exact flatMap_cols_getElem (sortKeys (objKeys r0)) (r0 :: rest) ri ci hri hci

/-- Witness for C10: a second row missing the column full binds undefined
for it, an extra key of the second row is ignored, and no error is raised
although the key sets differ from the first row's. -/
theorem qb_C10_witness :
    ∃ p, buildUpsertQuery ("public.users")
        [.obj [("id", .num 1)], .obj [("x", .num 5), ("extra", .num 6)]]
        ["id"] [] none none = .ok p ∧
      p.bindings.length =
        ([JsVal.obj [("id", .num 1)],
          JsVal.obj [("x", .num 5), ("extra", .num 6)]].length *
          (sortKeys (objKeys (.obj [("id", .num 1)]))).length) ∧
      (∀ ri ci,
        ri < [JsVal.obj [("id", .num 1)],
          JsVal.obj [("x", .num 5), ("extra", .num 6)]].length →
        ci < (sortKeys (objKeys (.obj [("id", .num 1)]))).length →
        p.bindings[ri * (sortKeys (objKeys (.obj [("id", .num 1)]))).length + ci]? =
          some (getProp
            (([JsVal.obj [("id", .num 1)],
              JsVal.obj [("x", .num 5), ("extra", .num 6)]][ri]?).getD .undef)
            (((sortKeys (objKeys (.obj [("id", .num 1)])))[ci]?).getD ("")))) ∧
      (∀ r c, hasProp r c = false → getProp r c = .undef) :=
  qb_C10_rows_after_first ("public.users") (.obj [("id", .num 1)])
    [.obj [("x", .num 5), ("extra", .num 6)]] ["id"] [] none none (by decide)

/-! Placeholder extraction (claim C1): decimal tokens. -/

theorem digitChar_toNat {k : Nat} (h : k < 10) : (digitChar k).toNat = 48 + k :=
  char_toNat_ofNat (by omega)

theorem isDig_digitChar {k : Nat} (h : k < 10) : isDig (digitChar k) = true := by
  simp only [isDig, digitChar_toNat h, Bool.and_eq_true, decide_eq_true_eq]
  omega

theorem natDigitsAux_append :
    ∀ fuel n acc, natDigitsAux fuel n acc = natDigitsAux fuel n [] ++ acc := by
  intro fuel
  induction fuel with
  | zero => intro n acc; rfl
  | succ fuel ih =>
    intro n acc
    simp only [natDigitsAux]
    by_cases h : n < 10
    · rw [if_pos h, if_pos h]
      rfl
    · rw [if_neg h, if_neg h, ih (n / 10) (digitChar (n % 10) :: acc),
        ih (n / 10) [digitChar (n % 10)]]
      simp

theorem natDigitsAux_mem :
    ∀ fuel n acc c, c ∈ natDigitsAux fuel n acc →
      c ∈ acc ∨ ∃ k, k < 10 ∧ c = digitChar k := by
  intro fuel
  induction fuel with
  | zero => intro n acc c hc; exact Or.inl hc
  | succ fuel ih =>
    intro n acc c hc
    simp only [natDigitsAux] at hc
    by_cases h : n < 10
    · rw [if_pos h] at hc
      rcases List.mem_cons.mp hc with hc | hc
      · exact Or.inr ⟨n % 10, Nat.mod_lt _ (by omega), hc⟩
      · exact Or.inl hc
    · rw [if_neg h] at hc
      rcases ih (n / 10) (digitChar (n % 10) :: acc) c hc with hc | hc
      · rcases List.mem_cons.mp hc with hc | hc
        · exact Or.inr ⟨n % 10, Nat.mod_lt _ (by omega), hc⟩
        · exact Or.inl hc
      · exact Or.inr hc

theorem natDigits_all_isDig (n : Nat) : ∀ c ∈ natDigits n, isDig c = true := by
  intro c hc
  rcases natDigitsAux_mem (n + 1) n [] c hc with hc | ⟨k, hk, rfl⟩
  · simp at hc
  · exact isDig_digitChar hk

theorem natDigits_ne_nil (n : Nat) : natDigits n ≠ [] := by
  simp only [natDigits, natDigitsAux]
  by_cases h : n < 10
  · rw [if_pos h]
    simp
  · rw [if_neg h, natDigitsAux_append]
    simp

theorem natOfDigits_natDigitsAux :
    ∀ fuel n, n < 10 ^ fuel → natOfDigits (natDigitsAux fuel n []) = n := by
  intro fuel
  induction fuel with
  | zero =>
    intro n h
    have hn : n = 0 := by simpa using h
    subst hn
    rfl
  | succ fuel ih =>
    intro n h
    simp only [natDigitsAux]
    by_cases h10 : n < 10
    · rw [if_pos h10]
      simp only [natOfDigits, List.foldl]
      rw [digitChar_toNat (Nat.mod_lt _ (by omega))]
      omega
    · rw [if_neg h10, natDigitsAux_append, natOfDigits, List.foldl_append]
      have hdiv : n / 10 < 10 ^ fuel := by
        have hpow : 10 ^ (fuel + 1) = 10 ^ fuel * 10 := by ring
        rw [hpow] at h
        omega
      have := ih (n / 10) hdiv
      simp only [natOfDigits] at this
      rw [this]
      simp only [List.foldl]
      rw [digitChar_toNat (Nat.mod_lt _ (by omega))]
      omega

theorem natOfDigits_natDigits (n : Nat) : natOfDigits (natDigits n) = n := by
  apply natOfDigits_natDigitsAux
  calc n < 10 ^ n := Nat.lt_pow_self (by omega) n
    _ ≤ 10 ^ (n + 1) := Nat.pow_le_pow_right (by omega) (Nat.le_succ n)

/-! Placeholder extraction: scanner lemmas. -/

theorem extract_nodollar_left :
    ∀ (a : List Char), noDollarL a = true →
      ∀ b, extractAux none (a ++ b) = extractAux none b := by
  intro a
  induction a with
  | nil => intro _ b; rfl
  | cons c rest ih =>
    intro ha b
    simp only [noDollarL, List.all_cons, Bool.and_eq_true] at ha
    have hc : ¬ c = '$' := by simpa using ha.1
    simp only [List.cons_append, extractAux, if_neg hc]
    exact ih ha.2 b

theorem extract_digit_run :
    ∀ (ds : List Char), (∀ c ∈ ds, isDig c = true) → ∀ m b,
      extractAux (some (some m)) (ds ++ b) =
        extractAux (some (some (ds.foldl (fun a c => a * 10 + (c.toNat - 48)) m))) b := by
  intro ds
  induction ds with
  | nil => intro _ m b; rfl
  | cons d rest ih =>
    intro h m b
    have hd : isDig d = true := h d (List.mem_cons_self d rest)
    have hstep : extractAux (some (some m)) ((d :: rest) ++ b) =
        extractAux (some (some (m * 10 + (d.toNat - 48)))) (rest ++ b) := by
      simp [extractAux, hd]
    rw [hstep, ih (fun c hc => h c (List.mem_cons_of_mem _ hc)) _ b]
    rfl

theorem extract_close_run {b : List Char} (hb : HeadNotDigit b) (n : Nat) :
    extractAux (some (some n)) b = n :: extractAux none b := by
  cases b with
  | nil => rfl
  | cons c rest =>
    have hc : isDig c = false := hb c rfl
    by_cases hd : c = '$'
    · subst hd
      simp [extractAux, hc]
    · simp [extractAux, hc, hd]

theorem extract_placeholder {b : List Char} (hb : HeadNotDigit b) (i : Nat) :
    extractAux none (('$' :: natDigits i) ++ b) = i :: extractAux none b := by
  rcases hnil : natDigits i with _ | ⟨d, ds⟩
  · exact absurd hnil (natDigits_ne_nil i)
  · have hall := natDigits_all_isDig i
    rw [hnil] at hall
    have hd : isDig d = true := hall d (List.mem_cons_self d ds)
    have hrest : ∀ c ∈ ds, isDig c = true :=
      fun c hc => hall c (List.mem_cons_of_mem _ hc)
    have hstep1 : extractAux none ('$' :: d :: ds ++ b) =
        extractAux (some (some (d.toNat - 48))) (ds ++ b) := by
      simp [extractAux, hd]
    rw [hstep1, extract_digit_run ds hrest _ b]
    have hval : ds.foldl (fun a c => a * 10 + (c.toNat - 48)) (d.toNat - 48) = i := by
      have h0 : natOfDigits (natDigits i) = i := natOfDigits_natDigits i
      rw [hnil] at h0
      simpa [natOfDigits, List.foldl] using h0
    rw [hval, extract_close_run hb]

/-! Placeholder extraction: composition. -/

theorem phExt_extract {a : List Char} {ns : List Nat} (h : PhExt a ns) :
    extractPh a = ns := by
  have := h [] (fun c hc => by simp at hc)
  simpa [extractPh, extractAux] using this

theorem phExt_nodollar {a : List Char} (h : noDollarL a = true) : PhExt a [] := by
  intro b _
  rw [extract_nodollar_left a h b]
  rfl

theorem headNotDigit_append {a b : List Char} (ha : HeadNotDigit a) (hb : HeadNotDigit b) :
    HeadNotDigit (a ++ b) := by
  cases a with
  | nil => simpa using hb
  | cons c rest =>
    intro d hd
    simp only [List.cons_append, List.head?_cons, Option.some.injEq] at hd
    subst hd
    exact ha c rfl

theorem phExt_append {a b : List Char} {ns ms : List Nat}
    (ha : PhExt a ns) (hb : PhExt b ms) (hhb : HeadNotDigit b) :
    PhExt (a ++ b) (ns ++ ms) := by
  intro c hc
  rw [List.append_assoc, ha (b ++ c) (headNotDigit_append hhb hc), hb c hc,
    List.append_assoc]

theorem phExt_absorb_left {a b : List Char} {ms : List Nat}
    (ha : noDollarL a = true) (hb : PhExt b ms) : PhExt (a ++ b) ms := by
  intro c hc
  rw [List.append_assoc, extract_nodollar_left a ha]
  exact hb c hc

theorem phExt_ph_token (i : Nat) : PhExt ('$' :: natDigits i) [i] := by
  intro b hb
  exact extract_placeholder hb i

theorem phExtS_append {a b : String} {ns ms : List Nat}
    (ha : PhExtS a ns) (hb : PhExtS b ms) (hh : HeadNotDigitS b) :
    PhExtS (a ++ b) (ns ++ ms) := by
  simp only [PhExtS, String.data_append]
  exact phExt_append ha hb hh

theorem phExtS_absorb_left {a b : String} {ms : List Nat}
    (ha : noDollar a = true) (hb : PhExtS b ms) : PhExtS (a ++ b) ms := by
  simp only [PhExtS, String.data_append]
  exact phExt_absorb_left ha hb

theorem phExtS_nodollar {a : String} (h : noDollar a = true) : PhExtS a [] :=
  phExt_nodollar h

theorem phExtS_append_nd {a b : String} {ns : List Nat}
    (ha : PhExtS a ns) (hb : noDollar b = true) (hh : HeadNotDigitS b) :
    PhExtS (a ++ b) ns := by
  have := phExtS_append ha (phExtS_nodollar hb) hh
  simpa using this

theorem noDollar_append {a b : String} (ha : noDollar a = true) (hb : noDollar b = true) :
    noDollar (a ++ b) = true := by
  simp only [noDollar, noDollarL, String.data_append, List.all_append,
    Bool.and_eq_true]
  exact ⟨ha, hb⟩

theorem headNotDigitS_append {a b : String} (ha : HeadNotDigitS a) (hb : HeadNotDigitS b) :
    HeadNotDigitS (a ++ b) := by
  simp only [HeadNotDigitS, String.data_append]
  exact headNotDigit_append ha hb

theorem headNotDigitB_spec {s : String} (h : headNotDigitB s = true) :
    HeadNotDigitS s := by
  intro c hc
  simp only [headNotDigitB] at h
  rw [hc] at h
  simpa using h

theorem phExtS_ph (i : Nat) : PhExtS (ph i) [i] := by
  have hdata : (ph i).data = '$' :: natDigits i := by
    simp [ph, natStr, String.data_append]
  simp only [PhExtS, hdata]
  exact phExt_ph_token i

theorem phExtS_extract {s : String} {ns : List Nat} (h : PhExtS s ns) :
    extractPh s.data = ns := phExt_extract h

/-! Dollar-freedom is preserved by the name normalizer and identifier
formatting. -/

theorem noDollar_mem {s : String} (h : noDollar s = true) : ∀ c ∈ s.data, c ≠ '$' := by
  intro c hc
  have := List.all_eq_true.mp h c hc
  simpa using this

theorem noDollar_of_mem {s : String} (h : ∀ c ∈ s.data, c ≠ '$') : noDollar s = true := by
  apply List.all_eq_true.mpr
  intro c hc
  simpa using h c hc

theorem toLower_eq_dollar {c : Char} (h : Char.toLower c = '$') : c = '$' := by
  by_cases hu : 65 ≤ c.toNat ∧ c.toNat ≤ 90
  · exfalso
    have hn := toNat_toLower_of_upper hu.1 hu.2
    rw [h] at hn
    have h36 : ('$' : Char).toNat = 36 := rfl
    omega
  · rwa [toLower_of_not_upper hu] at h

theorem removeAcronymAux_ne_dollar :
    ∀ (l : List Char) prev, (∀ c ∈ l, c ≠ '$') →
      ∀ c ∈ removeAcronymAux prev l, c ≠ '$' := by
  intro l
  induction l with
  | nil => intro prev _ c hc; simp [removeAcronymAux] at hc
  | cons x rest ih =>
    intro prev h c hc
    simp only [removeAcronymAux, List.mem_cons] at hc
    rcases hc with hc | hc
    · subst hc
      intro hd
      split at hd
      · exact h x (List.mem_cons_self x rest) (toLower_eq_dollar hd)
      · exact h x (List.mem_cons_self x rest) hd
    · exact ih (some x) (fun d hd => h d (List.mem_cons_of_mem _ hd)) c hc

theorem decamelizeAux_mem :
    ∀ (l : List Char) prev c, c ∈ decamelizeAux prev l → c = '_' ∨ c ∈ l := by
  intro l
  induction l with
  | nil => intro prev c hc; simp [decamelizeAux] at hc
  | cons x rest ih =>
    intro prev c hc
    simp only [decamelizeAux, List.mem_append] at hc
    rcases hc with hc | hc
    · split at hc
      · rcases List.mem_cons.mp hc with hc | hc
        · exact Or.inl hc
        · rcases List.mem_cons.mp hc with hc | hc
          · exact Or.inr (by simp [hc])
          · simp at hc
      · rcases List.mem_cons.mp hc with hc | hc
        · exact Or.inr (by simp [hc])
        · simp at hc
    · rcases ih (some x) c hc with hc | hc
      · exact Or.inl hc
      · exact Or.inr (List.mem_cons_of_mem _ hc)

theorem toSnakeCase_noDollar {s : String} (h : noDollar s = true) :
    noDollar (toSnakeCase s) = true := by
  apply noDollar_of_mem
  intro c hc
  simp only [toSnakeCase, decamelize, removeAcronymFromCamel, List.mem_map] at hc
  rcases hc with ⟨d, hd, rfl⟩
  intro hdollar
  have hd' : d = '$' := toLower_eq_dollar hdollar
  subst hd'
  rcases decamelizeAux_mem _ none '$' hd with hc | hc
  · simp at hc
  · exact removeAcronymAux_ne_dollar s.data none (noDollar_mem h) '$' hc rfl

theorem splitOnCharAux_sub {ch : Char} :
    ∀ (l acc : List Char) piece, piece ∈ splitOnCharAux ch l acc →
      ∀ c ∈ piece, c ∈ l ∨ c ∈ acc := by
  intro l
  induction l with
  | nil =>
    intro acc piece hp c hc
    simp only [splitOnCharAux, List.mem_singleton] at hp
    subst hp
    exact Or.inr (List.mem_reverse.mp hc)
  | cons x rest ih =>
    intro acc piece hp c hc
    simp only [splitOnCharAux] at hp
    by_cases hx : x = ch
    · rw [if_pos hx] at hp
      rcases List.mem_cons.mp hp with hp | hp
      · subst hp
        exact Or.inr (List.mem_reverse.mp hc)
      · rcases ih [] piece hp c hc with h | h
        · exact Or.inl (List.mem_cons_of_mem _ h)
        · simp at h
    · rw [if_neg hx] at hp
      rcases ih (x :: acc) piece hp c hc with h | h
      · exact Or.inl (List.mem_cons_of_mem _ h)
      · rcases List.mem_cons.mp h with h | h
        · exact Or.inl (by simp [h])
        · exact Or.inr h

theorem splitOn1_noDollar {ch : Char} {s piece : String} (h : noDollar s = true)
    (hp : piece ∈ splitOn1 ch s) : noDollar piece = true := by
  simp only [splitOn1, List.mem_map] at hp
  rcases hp with ⟨l, hl, rfl⟩
  apply noDollar_of_mem
  intro c hc
  rcases splitOnCharAux_sub s.data [] l hl c hc with h' | h'
  · exact noDollar_mem h c h'
  · simp at h'

theorem ident_noDollar {p : String} (h : noDollar p = true) :
    noDollar (ident p) = true :=
  noDollar_append (noDollar_append (by decide) h) (by decide)

theorem joinSep_noDollar {sep : String} (hs : noDollar sep = true) :
    ∀ (L : List String), (∀ s ∈ L, noDollar s = true) →
      noDollar (joinSep sep L) = true := by
  intro L
  induction L with
  | nil =>
    intro _
    exact (by decide : noDollar ("") = true)
  | cons x rest ih =>
    intro h
    cases rest with
    | nil => exact h x (List.mem_singleton.mpr rfl)
    | cons y ys =>
      have hx := h x (List.mem_cons_self x _)
      have hrest := ih (fun s hs' => h s (List.mem_cons_of_mem _ hs'))
      exact noDollar_append (noDollar_append hx hs) hrest

theorem identPath_noDollar {s : String} (h : noDollar s = true) :
    noDollar (identPath s) = true := by
  apply joinSep_noDollar (by decide)
  intro t ht
  simp only [List.mem_map] at ht
  rcases ht with ⟨piece, hp, rfl⟩
  exact ident_noDollar (splitOn1_noDollar h hp)

theorem splitOnCharAux_ne_nil {ch : Char} :
    ∀ (l acc : List Char), splitOnCharAux ch l acc ≠ [] := by
  intro l
  induction l with
  | nil => intro acc; simp [splitOnCharAux]
  | cons x rest ih =>
    intro acc
    simp only [splitOnCharAux]
    by_cases hx : x = ch
    · rw [if_pos hx]
      simp
    · rw [if_neg hx]
      exact ih (x :: acc)

theorem ident_data (p : String) : (ident p).data = '"' :: (p.data ++ ['"']) := by
  simp [ident, String.data_append]

theorem joinSep_head_of_head {sep x : String} {xs : List String} {c : Char} {l : List Char}
    (hx : x.data = c :: l) : ∃ t, (joinSep sep (x :: xs)).data = c :: t := by
  cases xs with
  | nil => exact ⟨l, hx⟩
  | cons y ys =>
    simp only [joinSep]
    have hdata : (x ++ sep ++ joinSep sep (y :: ys)).data =
        c :: (l ++ (sep ++ joinSep sep (y :: ys)).data) := by
      rw [String.append_assoc, String.data_append, hx]
      rfl
    exact ⟨_, hdata⟩

theorem identPath_head (s : String) : ∃ l, (identPath s).data = '"' :: l := by
  simp only [identPath, splitOn1]
  rcases hsplit : splitOnChar '.' s.data with _ | ⟨p, ps⟩
  · exact absurd hsplit (splitOnCharAux_ne_nil s.data [])
  · simp only [List.map_cons]
    exact joinSep_head_of_head (ident_data (String.mk p))

theorem colEntryOf_head (colPath : String) :
    ∃ c l, (colEntryOf colPath).data = c :: l ∧ isDig c = false := by
  simp only [colEntryOf]
  by_cases hm : containsComma colPath
  · rw [if_pos hm]
    have hdata : ("(" ++ joinSep (", ") ((splitOn1 ',' colPath).map identPath) ++ ")").data =
        '(' :: ((joinSep (", ") ((splitOn1 ',' colPath).map identPath)).data ++ [')']) := by
      rw [String.append_assoc, String.data_append]
      simp [String.data_append]
    exact ⟨'(', _, hdata, by decide⟩
  · rw [if_neg hm]
    rcases identPath_head colPath with ⟨l, hl⟩
    exact ⟨'"', l, hl, by decide⟩

theorem colEntryOf_noDollar {colPath : String} (h : noDollar colPath = true) :
    noDollar (colEntryOf colPath) = true := by
  simp only [colEntryOf]
  by_cases hm : containsComma colPath
  · rw [if_pos hm]
    apply noDollar_append
    apply noDollar_append (by decide)
    · apply joinSep_noDollar (by decide)
      intro t ht
      simp only [List.mem_map] at ht
      rcases ht with ⟨piece, hp, rfl⟩
      exact identPath_noDollar (splitOn1_noDollar h hp)
    · decide
  · rw [if_neg hm]
    exact identPath_noDollar h

theorem filterOps_noDollar : ∀ op ∈ filterOps, noDollar op = true := by decide

/-! Placeholder groups. -/

theorem joinSep_phSeq_head :
    ∀ k i, ∃ l, (joinSep (", ") (phSeq (k + 1) i)).data = '$' :: l := by
  intro k i
  have hph : (ph i).data = '$' :: natDigits i := by
    simp [ph, natStr, String.data_append]
  exact joinSep_head_of_head hph

theorem joinSep_phSeq_phExt : ∀ k i, PhExtS (joinSep (", ") (phSeq k i)) (List.range' i k) := by
  intro k
  induction k with
  | zero =>
    intro i
    have h0 : joinSep (", ") (phSeq 0 i) = "" := rfl
    rw [h0]
    exact phExtS_nodollar (by decide)
  | succ k ih =>
    intro i
    cases k with
    | zero =>
      simp only [phSeq, joinSep]
      simpa using phExtS_ph i
    | succ m =>
      have hcons : phSeq (m + 2) i = ph i :: phSeq (m + 1) (i + 1) := rfl
      rw [hcons]
      have htail : phSeq (m + 1) (i + 1) = ph (i + 1) :: phSeq m (i + 2) := rfl
      simp only [joinSep, htail]
      rw [← htail]
      have h1 : PhExtS (ph i ++ ", ") [i] :=
        phExtS_append_nd (phExtS_ph i) (by decide) (headNotDigitB_spec (by decide))
      rcases joinSep_phSeq_head m (i + 1) with ⟨l, hl⟩
      have h2 : PhExtS (ph i ++ ", " ++ joinSep (", ") (phSeq (m + 1) (i + 1)))
          ([i] ++ List.range' (i + 1) (m + 1)) :=
        phExtS_append h1 (ih (i + 1)) (by
          intro c hc
          rw [hl] at hc
          simp only [List.head?_cons, Option.some.injEq] at hc
          subst hc
          decide)
      simpa [List.range'] using h2

theorem phGroup_phExt (k i : Nat) :
    PhExtS ("(" ++ joinSep (", ") (phSeq k i) ++ ")") (List.range' i k) := by
  have h1 : PhExtS ("(" ++ joinSep (", ") (phSeq k i)) (List.range' i k) :=
    phExtS_absorb_left (by decide) (joinSep_phSeq_phExt k i)
  exact phExtS_append_nd h1 (by decide) (headNotDigitB_spec (by decide))

/-! Emission of one filter statement. -/

theorem emitStmt_spec (colPath op : String) (v : JsVal) (i : Nat)
    (hcol : noDollar colPath = true) (hop : op ∈ filterOps) :
    (emitStmt colPath op v i).2.2 = i + (emitStmt colPath op v i).2.1.length ∧
    PhExtS (emitStmt colPath op v i).1
      (List.range' i (emitStmt colPath op v i).2.1.length) ∧
    (∃ c l, (emitStmt colPath op v i).1.data = c :: l ∧ isDig c = false) := by
  have hprefix : noDollar (colEntryOf colPath ++ " " ++ op ++ " ") = true :=
    noDollar_append (noDollar_append
      (noDollar_append (colEntryOf_noDollar hcol) (by decide))
      (filterOps_noDollar op hop)) (by decide)
  rcases colEntryOf_head colPath with ⟨c, l, hcl, hcd⟩
  have hhead : ∀ t : String,
      ∃ c' l', ((colEntryOf colPath ++ " " ++ op ++ " " ++ t)).data = c' :: l' ∧
        isDig c' = false := by
    intro t
    refine ⟨c, l ++ (" " ++ op ++ " " ++ t).data, ?_, hcd⟩
    rw [show colEntryOf colPath ++ " " ++ op ++ " " ++ t =
      colEntryOf colPath ++ (" " ++ op ++ " " ++ t) by
        simp [String.append_assoc]]
    rw [String.data_append, hcl]
    rfl
  cases v with
  | arr ys =>
    refine ⟨by simp [emitStmt], ?_, ?_⟩
    · simp only [emitStmt]
      exact phExtS_absorb_left hprefix (phGroup_phExt ys.length i)
    · simpa only [emitStmt] using hhead _
  | null =>
    refine ⟨by simp [emitStmt], ?_, ?_⟩
    · simp only [emitStmt]
      have := phExtS_absorb_left hprefix (phExtS_ph i)
      simpa [List.range'] using this
    · simpa only [emitStmt] using hhead _
  | undef =>
    refine ⟨by simp [emitStmt], ?_, ?_⟩
    · simp only [emitStmt]
      have := phExtS_absorb_left hprefix (phExtS_ph i)
      simpa [List.range'] using this
    · simpa only [emitStmt] using hhead _
  | num n =>
    refine ⟨by simp [emitStmt], ?_, ?_⟩
    · simp only [emitStmt]
      have := phExtS_absorb_left hprefix (phExtS_ph i)
      simpa [List.range'] using this
    · simpa only [emitStmt] using hhead _
  | str s =>
    refine ⟨by simp [emitStmt], ?_, ?_⟩
    · simp only [emitStmt]
      have := phExtS_absorb_left hprefix (phExtS_ph i)
      simpa [List.range'] using this
    · simpa only [emitStmt] using hhead _
  | bool b =>
    refine ⟨by simp [emitStmt], ?_, ?_⟩
    · simp only [emitStmt]
      have := phExtS_absorb_left hprefix (phExtS_ph i)
      simpa [List.range'] using this
    · simpa only [emitStmt] using hhead _
  | obj fields =>
    refine ⟨by simp [emitStmt], ?_, ?_⟩
    · simp only [emitStmt]
      have := phExtS_absorb_left hprefix (phExtS_ph i)
      simpa [List.range'] using this
    · simpa only [emitStmt] using hhead _

/-! Statement chains. -/

theorem andEntry_some_spec {colPath : String} {v : JsVal} {i : Nat}
    {res : String × List JsVal × Nat}
    (h : andEntry colPath v i = .ok (some res)) (hcol : noDollar colPath = true) :
    res.2.2 = i + res.2.1.length ∧
    PhExtS res.1 (List.range' i res.2.1.length) ∧
    (∃ c l, res.1.data = c :: l ∧ isDig c = false) := by
  cases v with
  | null => exact Except.noConfusion h
  | undef => simp [andEntry] at h
  | num n =>
    simp only [andEntry] at h
    obtain rfl := Option.some.inj (Except.ok.inj h)
    exact emitStmt_spec colPath ("=") (.num n) i hcol (by decide)
  | str s =>
    simp only [andEntry] at h
    obtain rfl := Option.some.inj (Except.ok.inj h)
    exact emitStmt_spec colPath ("=") (.str s) i hcol (by decide)
  | bool b =>
    simp only [andEntry] at h
    obtain rfl := Option.some.inj (Except.ok.inj h)
    exact emitStmt_spec colPath ("=") (.bool b) i hcol (by decide)
  | arr xs =>
    simp only [andEntry] at h
    split at h
    · simp at h
    · split at h
      · simp at h
      · split at h
        · obtain rfl := Option.some.inj (Except.ok.inj h)
          exact emitStmt_spec colPath ("=") (.arr xs) i hcol (by decide)
        · obtain rfl := Option.some.inj (Except.ok.inj h)
          exact emitStmt_spec colPath ("in") (.arr xs) i hcol (by decide)
  | obj fields =>
    simp only [andEntry] at h
    split at h
    · simp at h
    · split at h
      · simp at h
      · split at h
        · rename_i s heq
          split at h
          · rename_i hcontains
            obtain rfl := Option.some.inj (Except.ok.inj h)
            exact emitStmt_spec colPath s _ i hcol (List.mem_of_elem_eq_true hcontains)
          · simp at h
        · simp at h

theorem buildAndList_chain :
    ∀ (entries : List (String × JsVal)) i stmts vals i',
      buildAndList entries i = .ok (stmts, vals, i') →
      (∀ e ∈ entries, noDollar e.1 = true) →
      i' = i + vals.length ∧ StmtChain i stmts vals ∧ (stmts = [] → vals = []) := by
  intro entries
  induction entries with
  | nil =>
    intro i stmts vals i' h _
    simp only [buildAndList, Except.ok.injEq, Prod.mk.injEq] at h
    obtain ⟨rfl, rfl, rfl⟩ := h
    exact ⟨by simp, rfl, fun _ => rfl⟩
  | cons e rest ih =>
    intro i stmts vals i' h hnd
    simp only [buildAndList] at h
    rcases han : andEntry e.1 e.2 i with err | v
    · rw [han] at h
      exact Except.noConfusion h
    · rw [han] at h
      rcases v with _ | ⟨stmt, pushed, i₂⟩
      · exact ih i stmts vals i' h (fun d hd => hnd d (List.mem_cons_of_mem _ hd))
      · dsimp only at h
        rcases hrest : buildAndList rest i₂ with err2 | w
        · rw [hrest] at h
          exact Except.noConfusion h
        · rcases w with ⟨stmts', vals', i₃⟩
          rw [hrest] at h
          simp only [Except.ok.injEq, Prod.mk.injEq] at h
          obtain ⟨rfl, rfl, rfl⟩ := h
          have hspec := andEntry_some_spec han (hnd e (List.mem_cons_self e rest))
          have hih := ih i₂ stmts' vals' i₃ hrest
            (fun d hd => hnd d (List.mem_cons_of_mem _ hd))
          have hi₂ : i₂ = i + pushed.length := hspec.1
          refine ⟨?_, ?_, ?_⟩
          · rw [hih.1, hi₂]
            simp [List.length_append]
            omega
          · refine ⟨pushed, vals', rfl, ?_, hspec.2.2, ?_⟩
            · simpa using hspec.2.1
            · rw [← hi₂]
              exact hih.2.1
          · intro hcons
            exact absurd hcons (by simp)

theorem stmtChain_nonempty_stmt {i : Nat} {s : String} {rest : List String}
    {vals : List JsVal} (h : StmtChain i (s :: rest) vals) : s.data ≠ [] := by
  rcases h with ⟨vs₁, vs₂, _, _, ⟨c, l, hcl, _⟩, _⟩
  rw [hcl]
  simp

theorem range'_merge (i m n : Nat) :
    List.range' i m ++ List.range' (i + m) n = List.range' i (m + n) := by
  have h := List.range'_append i m n 1
  simp only [Nat.one_mul] at h
  rw [h, Nat.add_comm]

theorem hndS_of_data {s : String} {c : Char} {l : List Char}
    (hd : s.data = c :: l) (hc : isDig c = false) : HeadNotDigitS s := by
  intro d hmem
  rw [hd] at hmem
  simp only [List.head?_cons, Option.some.injEq] at hmem
  subst hmem
  exact hc

theorem data_append_head {a : String} (b : String) {c : Char} {l : List Char}
    (ha : a.data = c :: l) : (a ++ b).data = c :: (l ++ b.data) := by
  rw [String.data_append, ha]
  rfl

theorem stmtChain_joinSep {sep : String} (hsep : noDollar sep = true)
    (hsh : HeadNotDigitS sep) :
    ∀ (stmts : List String) i vals, StmtChain i stmts vals →
      PhExtS (joinSep sep stmts) (List.range' i vals.length) ∧
      (stmts ≠ [] → ∃ c l, (joinSep sep stmts).data = c :: l ∧ isDig c = false) := by
  intro stmts
  induction stmts with
  | nil =>
    intro i vals h
    have hv : vals = [] := h
    subst hv
    have h0 : joinSep sep ([] : List String) = "" := rfl
    constructor
    · rw [h0]
      exact phExtS_nodollar (by decide)
    · intro hcontra
      exact absurd rfl hcontra
  | cons s rest ih =>
    intro i vals h
    rcases h with ⟨vs₁, vs₂, rfl, hph, ⟨c, l, hcl, hcd⟩, hchain⟩
    cases rest with
    | nil =>
      have hv₂ : vs₂ = [] := hchain
      subst hv₂
      constructor
      · simpa [joinSep, List.append_nil] using hph
      · intro _
        exact ⟨c, l, hcl, hcd⟩
    | cons t ts =>
      have hih := ih (i + vs₁.length) vs₂ hchain
      rcases hih.2 (by simp) with ⟨c', l', hcl', hcd'⟩
      have hjoin : joinSep sep (s :: t :: ts) = s ++ sep ++ joinSep sep (t :: ts) := rfl
      constructor
      · rw [hjoin]
        have h1 : PhExtS (s ++ sep) (List.range' i vs₁.length) :=
          phExtS_append_nd hph hsep hsh
        have h2 := phExtS_append h1 hih.1 (hndS_of_data hcl' hcd')
        rw [range'_merge, ← List.length_append] at h2
        exact h2
      · intro _
        refine ⟨c, l ++ (sep ++ joinSep sep (t :: ts)).data, ?_, hcd⟩
        rw [hjoin, String.append_assoc]
        exact data_append_head _ hcl

theorem paren_phExt {s : String} {ns : List Nat} (h : PhExtS s ns) :
    PhExtS ("(" ++ s ++ ")") ns := by
  have h1 : PhExtS ("(" ++ s) ns := phExtS_absorb_left (by decide) h
  exact phExtS_append_nd h1 (by decide) (headNotDigitB_spec (by decide))

theorem paren_data (s : String) : ("(" ++ s ++ ")").data = '(' :: (s.data ++ [')']) := by
  rw [String.append_assoc]
  exact data_append_head _ (by rfl)

theorem stmtChain_joinParen {sep : String} (hsep : noDollar sep = true)
    (hsh : HeadNotDigitS sep) :
    ∀ (stmts : List String) i vals, StmtChain i stmts vals →
      PhExtS (joinSep sep (stmts.map (fun s => "(" ++ s ++ ")")))
        (List.range' i vals.length) ∧
      (stmts ≠ [] →
        ∃ l, (joinSep sep (stmts.map (fun s => "(" ++ s ++ ")"))).data = '(' :: l) := by
  intro stmts
  induction stmts with
  | nil =>
    intro i vals h
    have hv : vals = [] := h
    subst hv
    have h0 : joinSep sep (([] : List String).map (fun s => "(" ++ s ++ ")")) = "" := rfl
    constructor
    · rw [h0]
      exact phExtS_nodollar (by decide)
    · intro hcontra
      exact absurd rfl hcontra
  | cons s rest ih =>
    intro i vals h
    rcases h with ⟨vs₁, vs₂, rfl, hph, _, hchain⟩
    cases rest with
    | nil =>
      have hv₂ : vs₂ = [] := hchain
      subst hv₂
      constructor
      · simpa [joinSep, List.append_nil] using paren_phExt hph
      · intro _
        exact ⟨_, paren_data s⟩
    | cons t ts =>
      have hih := ih (i + vs₁.length) vs₂ hchain
      rcases hih.2 (by simp) with ⟨l', hcl'⟩
      have hjoin : joinSep sep ((s :: t :: ts).map (fun s => "(" ++ s ++ ")")) =
          ("(" ++ s ++ ")") ++ sep ++
            joinSep sep ((t :: ts).map (fun s => "(" ++ s ++ ")")) := rfl
      constructor
      · rw [hjoin]
        have h1 : PhExtS (("(" ++ s ++ ")") ++ sep) (List.range' i vs₁.length) :=
          phExtS_append_nd (paren_phExt hph) hsep hsh
        have h2 := phExtS_append h1 hih.1 (hndS_of_data hcl' (by decide))
        rw [range'_merge, ← List.length_append] at h2
        exact h2
      · intro _
        refine ⟨(s.data ++ [')']) ++
          (sep ++ joinSep sep ((t :: ts).map (fun s => "(" ++ s ++ ")"))).data, ?_⟩
        rw [hjoin, String.append_assoc]
        exact data_append_head _ (paren_data s)

theorem stmtChain_groupJoin {sep : String} (hsep : noDollar sep = true)
    (hsh : HeadNotDigitS sep) {stmts : List String} {i : Nat} {vals : List JsVal}
    (h : StmtChain i stmts vals) :
    PhExtS (groupJoin sep stmts) (List.range' i vals.length) ∧
    (stmts ≠ [] →
      ∃ c l, (groupJoin sep stmts).data = c :: l ∧ isDig c = false) := by
  cases stmts with
  | nil =>
    have hv : vals = [] := h
    subst hv
    constructor
    · have h0 : groupJoin sep [] = "" := rfl
      rw [h0]
      exact phExtS_nodollar (by decide)
    · intro hcontra
      exact absurd rfl hcontra
  | cons s rest =>
    cases rest with
    | nil =>
      rcases h with ⟨vs₁, vs₂, rfl, hph, ⟨c, l, hcl, hcd⟩, hchain⟩
      have hv₂ : vs₂ = [] := hchain
      subst hv₂
      have h0 : groupJoin sep [s] = s := rfl
      rw [h0]
      constructor
      · simpa [List.append_nil] using hph
      · intro _
        exact ⟨c, l, hcl, hcd⟩
    | cons t ts =>
      have h0 : groupJoin sep (s :: t :: ts) =
          joinSep sep ((s :: t :: ts).map (fun s => "(" ++ s ++ ")")) := by
        simp [groupJoin]
      rw [h0]
      have hres := stmtChain_joinParen hsep hsh (s :: t :: ts) i vals h
      refine ⟨hres.1, fun _ => ?_⟩
      rcases hres.2 (by simp) with ⟨l, hl⟩
      exact ⟨'(', l, hl, by decide⟩

theorem buildAndStatement_spec {g : JsVal} {i : Nat} {stmtOpt : Option String}
    {avals : List JsVal} {i₂ : Nat}
    (h : buildAndStatement g i = .ok (stmtOpt, avals, i₂))
    (hnd : ∀ e ∈ jsEnumEntries g, noDollar e.1 = true) :
    i₂ = i + avals.length ∧
    ((stmtOpt = none ∧ avals = []) ∨
      (∃ s astmts, stmtOpt = some s ∧ s = joinSep (" and ") astmts ∧
        StmtChain i astmts avals ∧ (astmts = [] → avals = []))) := by
  simp only [buildAndStatement] at h
  split at h
  · simp only [Except.ok.injEq, Prod.mk.injEq] at h
    obtain ⟨rfl, rfl, rfl⟩ := h
    exact ⟨by simp, Or.inl ⟨rfl, rfl⟩⟩
  · rcases hlist : buildAndList (jsEnumEntries g) i with err | w
    · rw [hlist] at h
      exact Except.noConfusion h
    · rcases w with ⟨astmts, avals', i₂'⟩
      rw [hlist] at h
      simp only [Except.ok.injEq, Prod.mk.injEq] at h
      obtain ⟨rfl, rfl, rfl⟩ := h
      have hchain := buildAndList_chain (jsEnumEntries g) i astmts avals' i₂' hlist hnd
      exact ⟨hchain.1, Or.inr ⟨_, astmts, rfl, rfl, hchain.2.1, hchain.2.2⟩⟩

theorem buildOrList_chain :
    ∀ (gs : List JsVal) i stmts vals i',
      buildOrList gs i = .ok (stmts, vals, i') →
      (∀ g ∈ gs, ∀ e ∈ jsEnumEntries g, noDollar e.1 = true) →
      i' = i + vals.length ∧ StmtChain i stmts vals := by
  intro gs
  induction gs with
  | nil =>
    intro i stmts vals i' h _
    simp only [buildOrList, Except.ok.injEq, Prod.mk.injEq] at h
    obtain ⟨rfl, rfl, rfl⟩ := h
    exact ⟨by simp, rfl⟩
  | cons g rest ih =>
    intro i stmts vals i' h hnd
    simp only [buildOrList] at h
    rcases hand : buildAndStatement g i with err | w
    · rw [hand] at h
      exact Except.noConfusion h
    · rcases w with ⟨stmtOpt, avals, i₂⟩
      rw [hand] at h
      dsimp only at h
      rcases hrest : buildOrList rest i₂ with err2 | w2
      · rw [hrest] at h
        exact Except.noConfusion h
      · rcases w2 with ⟨stmts', vals₂, i₃⟩
        rw [hrest] at h
        dsimp only at h
        have hspec := buildAndStatement_spec hand (hnd g (List.mem_cons_self g rest))
        have hih := ih i₂ stmts' vals₂ i₃ hrest
          (fun d hd => hnd d (List.mem_cons_of_mem _ hd))
        have hsep : noDollar (" and ") = true := by decide
        have hsh : HeadNotDigitS (" and ") := headNotDigitB_spec (by decide)
        rcases hspec.2 with ⟨hnone, hv⟩ | ⟨s, astmts, hsome, hs, hchain, hempty⟩
        · subst hnone
          subst hv
          dsimp only at h
          simp only [Except.ok.injEq, Prod.mk.injEq] at h
          obtain ⟨rfl, rfl, rfl⟩ := h
          have hi₂ : i₂ = i := by
            simpa using hspec.1
          subst hi₂
          simpa using hih
        · subst hsome
          dsimp only at h
          split at h
          · rename_i hsz
            have hse : s = "" := eq_of_beq hsz
            have havals : avals = [] := by
              cases hast : astmts with
              | nil => exact hempty hast
              | cons a as =>
                exfalso
                have hne : astmts ≠ [] := by
                  rw [hast]
                  simp
                rcases (stmtChain_joinSep hsep hsh astmts i avals hchain).2 hne with
                  ⟨c, l, hdata, _⟩
                rw [← hs, hse] at hdata
                simp at hdata
            subst havals
            simp only [List.nil_append, Except.ok.injEq, Prod.mk.injEq] at h
            obtain ⟨rfl, rfl, rfl⟩ := h
            have hi₂ : i₂ = i := by simpa using hspec.1
            subst hi₂
            exact hih
          · rename_i hsz
            simp only [Except.ok.injEq, Prod.mk.injEq] at h
            obtain ⟨rfl, rfl, rfl⟩ := h
            have hjoin := stmtChain_joinSep hsep hsh astmts i avals hchain
            have hastne : astmts ≠ [] := by
              intro hnil
              apply hsz
              subst hnil
              rw [hs]
              rfl
            rcases hjoin.2 hastne with ⟨c, l, hdata, hcd⟩
            refine ⟨?_, ?_⟩
            · rw [hih.1, hspec.1]
              simp only [List.length_append]
              omega
            · refine ⟨avals, vals₂, rfl, ?_, ⟨c, l, ?_, hcd⟩, ?_⟩
              · rw [hs]
                exact hjoin.1
              · rw [hs]
                exact hdata
              · rw [← hspec.1]
                exact hih.2

/-! Options suffix and block range. -/

theorem hndS_empty : HeadNotDigitS ("") := by
  intro c hc
  simp at hc

theorem hndS_append_left {a : String} (b : String) (ha : headNotDigitB a = true)
    (hne : a.data ≠ []) : HeadNotDigitS (a ++ b) := by
  rcases hd : a.data with _ | ⟨c, l⟩
  · exact absurd hd hne
  · have hc : isDig c = false := by
      simp only [headNotDigitB, hd, List.head?_cons] at ha
      simpa using ha
    exact hndS_of_data (data_append_head b hd) hc

theorem hndS_append₂ {a : String} (b c : String) (ha : headNotDigitB a = true)
    (hne : a.data ≠ []) : HeadNotDigitS (a ++ b ++ c) := by
  rw [String.append_assoc]
  exact hndS_append_left _ ha hne

theorem optionsSuffix_noDollar {options : Option SelectOptions}
    (h : optsNoDollar options = true) : noDollar (optionsSuffix options) = true := by
  cases options with
  | none => decide
  | some o =>
    simp only [optsNoDollar, Bool.and_eq_true] at h
    obtain ⟨⟨⟨hob, hoff⟩, hlim⟩, _⟩ := h
    simp only [optionsSuffix]
    apply noDollar_append
    apply noDollar_append
    · cases hobv : o.orderBy with
      | none => decide
      | some ob =>
        rw [hobv] at hob
        simp only [orderBySuffix]
        split
        · rename_i hcond
          apply noDollar_append
          apply noDollar_append
          apply noDollar_append (by decide)
          · apply joinSep_noDollar (by decide)
            intro t ht
            simp only [List.mem_map] at ht
            rcases ht with ⟨c, hc, rfl⟩
            exact identPath_noDollar (toSnakeCase_noDollar (List.all_eq_true.mp hob c hc))
          · decide
          · have hdir : ob.direction = "asc" ∨ ob.direction = "desc" := by
              simp only [Bool.and_eq_true, Bool.or_eq_true] at hcond
              rcases hcond.2 with h1 | h1
              · exact Or.inl (eq_of_beq h1)
              · exact Or.inr (eq_of_beq h1)
            rcases hdir with h1 | h1 <;> rw [h1] <;> decide
        · decide
    · cases hoffv : o.offset with
      | none => decide
      | some v =>
        rw [hoffv] at hoff
        exact noDollar_append (by decide) hoff
    · cases hlimv : o.limit with
      | none => decide
      | some v =>
        rw [hlimv] at hlim
        exact noDollar_append (by decide) hlim

theorem optionsSuffix_hnd (options : Option SelectOptions) :
    HeadNotDigitS (optionsSuffix options) := by
  cases options with
  | none => exact hndS_empty
  | some o =>
    simp only [optionsSuffix]
    apply headNotDigitS_append
    apply headNotDigitS_append
    · cases o.orderBy with
      | none => exact hndS_empty
      | some ob =>
        simp only [orderBySuffix]
        split
        · rw [String.append_assoc, String.append_assoc]
          exact hndS_append_left _ (by decide) (by decide)
        · exact hndS_empty
    · cases o.offset with
      | none => exact hndS_empty
      | some v => exact hndS_append_left _ (by decide) (by decide)
    · cases o.limit with
      | none => exact hndS_empty
      | some v => exact hndS_append_left _ (by decide) (by decide)

theorem blockRangeOf_literals {options : Option SelectOptions}
    (h : optsNoDollar options = true) :
    ∀ v ∈ blockRangeOf options, noDollar (literal v) = true := by
  cases options with
  | none => intro v hv; simp [blockRangeOf] at hv
  | some o =>
    simp only [optsNoDollar, Bool.and_eq_true] at h
    obtain ⟨_, hbr⟩ := h
    intro v hv
    simp only [blockRangeOf] at hv
    cases hbrv : o.blockRange with
    | none =>
      rw [hbrv] at hv
      simp at hv
    | some br =>
      rw [hbrv] at hv hbr
      exact List.all_eq_true.mp hbr v hv

theorem blockRangeStmt_noDollar {br : List JsVal}
    (h : ∀ v ∈ br, noDollar (literal v) = true) :
    noDollar (blockRangeStmt br) = true := by
  simp only [blockRangeStmt]
  apply noDollar_append
  · apply noDollar_append (by decide)
    cases br with
    | nil => exact (by decide : noDollar (literal .undef) = true)
    | cons v vs => exact h v (List.mem_cons_self v vs)
  · split
    · apply noDollar_append (by decide)
      cases br with
      | nil => exact (by decide : noDollar (literal .undef) = true)
      | cons v vs =>
        cases vs with
        | nil => exact (by decide : noDollar (literal .undef) = true)
        | cons w ws => exact h w (by simp)
    · decide

theorem blockRangeStmt_hnd (br : List JsVal) : HeadNotDigitS (blockRangeStmt br) := by
  simp only [blockRangeStmt]
  rw [String.append_assoc]
  exact hndS_append_left _ (by decide) (by decide)

/-! Router output stays dollar-free. -/

theorem lookup_mem_snd {α β : Type} [BEq α] :
    ∀ (l : List (α × β)) (a : α) (b : β), List.lookup a l = some b →
      b ∈ l.map Prod.snd := by
  intro l
  induction l with
  | nil => intro a b h; simp [List.lookup] at h
  | cons e rest ih =>
    intro a b h
    simp only [List.lookup] at h
    rcases he : a == e.1 with _ | _
    · rw [he] at h
      exact List.mem_cons_of_mem _ (ih a b h)
    · rw [he] at h
      simp only [Option.some.injEq] at h
      subst h
      simp

theorem schemaForChainId_noDollar {id cs : String}
    (h : schemaForChainId id = some cs) : noDollar cs = true := by
  have hm : cs ∈ chainPairs.map Prod.snd := lookup_mem_snd chainPairs id cs h
  have hall : ∀ x ∈ chainPairs.map Prod.snd, noDollar x = true := by decide
  exact hall cs hm

theorem tableName_noDollar {table : String} (h : noDollar table = true) :
    noDollar (((splitOn1 '.' table).drop 1).headD ("")) = true := by
  rcases hd : (splitOn1 '.' table).drop 1 with _ | ⟨p, ps⟩
  · decide
  · have hp : p ∈ splitOn1 '.' table :=
      List.mem_of_mem_drop (by rw [hd]; exact List.mem_cons_self p ps)
    exact splitOn1_noDollar h hp

theorem detect_keeps_noDollar {table : String} {filters : List JsVal}
    {options : Option SelectOptions} {t₂ : String} {fs₂ : List JsVal}
    (h : detectSpecSchemaQuery table filters options = .ok (t₂, fs₂))
    (htab : noDollar table = true)
    (hkeys : ∀ g ∈ filters, ∀ e ∈ jsEnumEntries g, noDollar e.1 = true) :
    noDollar t₂ = true ∧ ∀ g ∈ fs₂, ∀ e ∈ jsEnumEntries g, noDollar e.1 = true := by
  have hsentinel : noDollar emptyResponseTable = true ∧
      ∀ g ∈ emptyResponseFilters, ∀ e ∈ jsEnumEntries g, noDollar e.1 = true := by
    constructor
    · decide
    · intro g hg e he
      simp only [emptyResponseFilters, List.mem_singleton] at hg
      subst hg
      simp only [jsEnumEntries, List.mem_singleton] at he
      subst he
      decide
  simp only [detectSpecSchemaQuery] at h
  split at h
  · simp only [Except.ok.injEq, Prod.mk.injEq] at h
    obtain ⟨rfl, rfl⟩ := h
    exact ⟨htab, hkeys⟩
  · split at h
    · split at h
      · simp only [Except.ok.injEq, Prod.mk.injEq] at h
        obtain ⟨rfl, rfl⟩ := h
        exact hsentinel
      · rename_i cs hcs
        simp only [Except.ok.injEq, Prod.mk.injEq] at h
        obtain ⟨rfl, rfl⟩ := h
        refine ⟨?_, hkeys⟩
        exact noDollar_append (noDollar_append (schemaForChainId_noDollar hcs)
          (by decide)) (tableName_noDollar htab)
    · split at h
      · exact Except.noConfusion h
      · split at h
        · exact Except.noConfusion h
        · split at h
          · simp only [Except.ok.injEq, Prod.mk.injEq] at h
            obtain ⟨rfl, rfl⟩ := h
            exact hsentinel
          · rename_i cs hcs
            split at h
            · exact Except.noConfusion h
            · simp only [Except.ok.injEq, Prod.mk.injEq] at h
              obtain ⟨rfl, rfl⟩ := h
              constructor
              · exact noDollar_append (noDollar_append (schemaForChainId_noDollar hcs)
                  (by decide)) (tableName_noDollar htab)
              · intro g hg e he
                simp only [List.mem_map] at hg
                rcases hg with ⟨g', hg', rfl⟩
                simp only [stripChainId, jsEnumEntries] at he
                have he' : e ∈ jsEnumEntries g' := List.mem_of_mem_filter he
                exact hkeys g' hg' e he'

theorem blockRangeStmt_head (br : List JsVal) :
    ∃ c l, (blockRangeStmt br).data = c :: l ∧ isDig c = false := by
  have hA : ("block_number >= ").data = 'b' :: ("lock_number >= ").data := rfl
  simp only [blockRangeStmt]
  rw [String.append_assoc]
  exact ⟨'b', _, data_append_head _ hA, by decide⟩

theorem buildSelectQuery_extract :
    ∀ table filters options p,
      selNoDollar table filters options = true →
      buildSelectQuery table filters options = .ok p →
      extractPh p.sql.data = List.range' 1 p.bindings.length := by
  intro table filters options p hnd h
  simp only [selNoDollar, Bool.and_eq_true] at hnd
  obtain ⟨⟨htab, hkeys⟩, hopts⟩ := hnd
  have hkeys' : ∀ g ∈ (toGroupList filters).filter truthy,
      ∀ e ∈ jsEnumEntries g, noDollar e.1 = true := by
    intro g hg e he
    have hg' : g ∈ toGroupList filters := List.mem_of_mem_filter hg
    exact List.all_eq_true.mp (List.all_eq_true.mp hkeys g hg') e he
  simp only [buildSelectQuery] at h
  rcases hdet : detectSpecSchemaQuery table ((toGroupList filters).filter truthy) options
    with err | w
  · rw [hdet] at h
    exact Except.noConfusion h
  · rcases w with ⟨t₂, fs₂⟩
    rw [hdet] at h
    dsimp only at h
    have hdnd := detect_keeps_noDollar hdet htab hkeys'
    have hsel : noDollar ("select * from " ++ identPath t₂) = true :=
      noDollar_append (by decide) (identPath_noDollar hdnd.1)
    have hsuffnd := optionsSuffix_noDollar hopts
    have hsuffhnd := optionsSuffix_hnd options
    have hempty : extractPh
        (addSelectOptionsToQuery ("select * from " ++ identPath t₂) options).data =
        List.range' 1 ([] : List JsVal).length := by
      have hph : PhExtS ("select * from " ++ identPath t₂ ++ optionsSuffix options) [] :=
        phExtS_nodollar (noDollar_append hsel hsuffnd)
      simpa [addSelectOptionsToQuery] using phExtS_extract hph
    split at h
    · obtain rfl := Except.ok.inj h
      exact hempty
    · rcases hor : buildOrList (fs₂.map normalizeKeys) 1 with err2 | w2
      · rw [hor] at h
        exact Except.noConfusion h
      · rcases w2 with ⟨orStatements, values, ifin⟩
        rw [hor] at h
        dsimp only at h
        have hkeys₂ : ∀ g ∈ fs₂.map normalizeKeys,
            ∀ e ∈ jsEnumEntries g, noDollar e.1 = true := by
          intro g hg e he
          simp only [List.mem_map] at hg
          rcases hg with ⟨g', hg', rfl⟩
          simp only [normalizeKeys, jsEnumEntries, List.mem_map] at he
          rcases he with ⟨e', he', rfl⟩
          exact toSnakeCase_noDollar (hdnd.2 g' hg' e' he')
        have hchain := buildOrList_chain (fs₂.map normalizeKeys) 1 orStatements values
          ifin hor hkeys₂
        have hgj := stmtChain_groupJoin (by decide : noDollar (" or ") = true)
          (headNotDigitB_spec (by decide)) hchain.2
        split at h
        · obtain rfl := Except.ok.inj h
          exact hempty
        · rename_i hnotempty
          obtain rfl := Except.ok.inj h
          have hwand : noDollar (" and ") = true := by decide
          have hshand : HeadNotDigitS (" and ") := headNotDigitB_spec (by decide)
          by_cases hbr : (blockRangeOf options).isEmpty = true
          · by_cases hos : orStatements.isEmpty = true
            · exact absurd (by simp [hos, hbr]) hnotempty
            · have hosne : orStatements ≠ [] := by
                intro hnil
                rw [hnil] at hos
                exact hos rfl
              have hwchain : StmtChain 1
                  (([] : List String) ++ [groupJoin (" or ") orStatements]) values := by
                refine ⟨values, [], (List.append_nil values).symm, ?_, hgj.2 hosne, rfl⟩
                simpa using hgj.1
              have hwc := stmtChain_groupJoin hwand hshand hwchain
              have hsql : PhExtS ("select * from " ++ identPath t₂ ++ " where " ++
                  groupJoin (" and ")
                    (([] : List String) ++ [groupJoin (" or ") orStatements]) ++
                  optionsSuffix options) (List.range' 1 values.length) := by
                have h1 : noDollar ("select * from " ++ identPath t₂ ++ " where ") = true :=
                  noDollar_append hsel (by decide)
                have h2 := phExtS_absorb_left h1 (by simpa using hwc.1)
                exact phExtS_append_nd h2 hsuffnd hsuffhnd
              simp only [hbr, hos, if_true, if_false, Bool.false_eq_true]
              simpa [addSelectOptionsToQuery, List.length_append] using phExtS_extract hsql
          · have hbrnd := blockRangeStmt_noDollar (blockRangeOf_literals hopts)
            rcases blockRangeStmt_head (blockRangeOf options) with ⟨cb, lb, hcb, hcbd⟩
            by_cases hos : orStatements.isEmpty = true
            · have hosnil : orStatements = [] := by
                simpa [List.isEmpty_iff] using hos
              have hvnil : values = [] := by
                rw [hosnil] at hchain
                exact hchain.2
              subst hvnil
              have hwchain : StmtChain 1
                  ([blockRangeStmt (blockRangeOf options)] ++ ([] : List String)) [] := by
                refine ⟨[], [], rfl, ?_, ⟨cb, lb, hcb, hcbd⟩, rfl⟩
                exact phExtS_nodollar hbrnd
              have hwc := stmtChain_groupJoin hwand hshand hwchain
              have hsql : PhExtS ("select * from " ++ identPath t₂ ++ " where " ++
                  groupJoin (" and ")
                    ([blockRangeStmt (blockRangeOf options)] ++ ([] : List String)) ++
                  optionsSuffix options) (List.range' 1 0) := by
                have h1 : noDollar ("select * from " ++ identPath t₂ ++ " where ") = true :=
                  noDollar_append hsel (by decide)
                have h2 := phExtS_absorb_left h1 (by simpa using hwc.1)
                exact phExtS_append_nd h2 hsuffnd hsuffhnd
              simp only [hbr, hos, hosnil, if_true, if_false, Bool.false_eq_true]
              simpa [addSelectOptionsToQuery] using phExtS_extract hsql
            · have hosne : orStatements ≠ [] := by
                intro hnil
                rw [hnil] at hos
                exact hos rfl
              have hwchain : StmtChain 1
                  ([blockRangeStmt (blockRangeOf options)] ++
                    [groupJoin (" or ") orStatements]) values := by
                refine ⟨[], values, (List.nil_append values).symm, ?_,
                  ⟨cb, lb, hcb, hcbd⟩, ?_⟩
                · exact phExtS_nodollar hbrnd
                · refine ⟨values, [], (List.append_nil values).symm, ?_, hgj.2 hosne, rfl⟩
                  simpa using hgj.1
              have hwc := stmtChain_groupJoin hwand hshand hwchain
              have hsql : PhExtS ("select * from " ++ identPath t₂ ++ " where " ++
                  groupJoin (" and ")
                    ([blockRangeStmt (blockRangeOf options)] ++
                      [groupJoin (" or ") orStatements]) ++
                  optionsSuffix options) (List.range' 1 values.length) := by
                have h1 : noDollar ("select * from " ++ identPath t₂ ++ " where ") = true :=
                  noDollar_append hsel (by decide)
                have h2 := phExtS_absorb_left h1 (by simpa using hwc.1)
                exact phExtS_append_nd h2 hsuffnd hsuffhnd
              simp only [hbr, hos, if_true, if_false, Bool.false_eq_true]
              simpa [addSelectOptionsToQuery] using phExtS_extract hsql

/-! Upsert placeholders. -/

theorem joinSep_snoc {sep x : String} :
    ∀ (xs : List String), xs ≠ [] →
      joinSep sep (xs ++ [x]) = joinSep sep xs ++ sep ++ x := by
  intro xs
  induction xs with
  | nil => intro h; exact absurd rfl h
  | cons y ys ih =>
    intro _
    cases ys with
    | nil => rfl
    | cons z zs =>
      have h1 : joinSep sep ((y :: z :: zs) ++ [x]) =
          y ++ sep ++ joinSep sep ((z :: zs) ++ [x]) := rfl
      have h2 : joinSep sep (y :: z :: zs) = y ++ sep ++ joinSep sep (z :: zs) := rfl
      rw [h1, ih (by simp), h2]
      simp [String.append_assoc]

theorem phGroup_head (k i : Nat) :
    ∃ l, ("(" ++ joinSep (", ") (phSeq k i) ++ ")").data = '(' :: l :=
  ⟨_, paren_data _⟩

theorem phRows_phExt :
    ∀ (m k : Nat),
      PhExtS (joinSep (", ") ((List.range m).map
        (fun r => "(" ++ joinSep (", ") (phSeq k (1 + r * k)) ++ ")")))
        (List.range' 1 (m * k)) ∧
      (m ≠ 0 → ∃ l, (joinSep (", ") ((List.range m).map
        (fun r => "(" ++ joinSep (", ") (phSeq k (1 + r * k)) ++ ")"))).data = '(' :: l) := by
  intro m
  induction m with
  | zero =>
    intro k
    constructor
    · have h0 : joinSep (", ") (((List.range 0).map
        (fun r => "(" ++ joinSep (", ") (phSeq k (1 + r * k)) ++ ")"))) = "" := rfl
      rw [h0]
      have h1 : (0 : Nat) * k = 0 := Nat.zero_mul k
      rw [h1]
      exact phExtS_nodollar (by decide)
    · intro hc
      exact absurd rfl hc
  | succ m ih =>
    intro k
    rw [List.range_succ, List.map_append, List.map_cons, List.map_nil]
    by_cases hm0 : m = 0
    · subst hm0
      simp only [List.range_zero, List.map_nil, List.nil_append]
      constructor
      · have h0 : joinSep (", ")
            [("(" ++ joinSep (", ") (phSeq k (1 + 0 * k)) ++ ")")] =
            "(" ++ joinSep (", ") (phSeq k (1 + 0 * k)) ++ ")" := rfl
        rw [h0]
        simpa using phGroup_phExt k 1
      · intro _
        have h0 : joinSep (", ")
            [("(" ++ joinSep (", ") (phSeq k (1 + 0 * k)) ++ ")")] =
            "(" ++ joinSep (", ") (phSeq k (1 + 0 * k)) ++ ")" := rfl
        rw [h0]
        exact phGroup_head k (1 + 0 * k)
    · have hne : (List.range m).map
          (fun r => "(" ++ joinSep (", ") (phSeq k (1 + r * k)) ++ ")") ≠ [] := by
        intro h
        have hlen := congrArg List.length h
        simp at hlen
        exact hm0 hlen
      rw [joinSep_snoc _ hne]
      have hihm := ih k
      have h1 : PhExtS ((joinSep (", ") ((List.range m).map
          (fun r => "(" ++ joinSep (", ") (phSeq k (1 + r * k)) ++ ")"))) ++ ", ")
          (List.range' 1 (m * k)) :=
        phExtS_append_nd hihm.1 (by decide) (headNotDigitB_spec (by decide))
      have hgroup := phGroup_phExt k (1 + m * k)
      have hgrouphead := phGroup_head k (1 + m * k)
      rcases hgrouphead with ⟨l, hl⟩
      have h2 := phExtS_append h1 hgroup (hndS_of_data hl (by decide))
      constructor
      · have hr : List.range' 1 (m * k) ++ List.range' (1 + m * k) k =
            List.range' 1 ((m + 1) * k) := by
          rw [range'_merge]
          congr 1
          rw [Nat.succ_mul]
        rw [← hr]
        exact h2
      · intro _
        rcases hihm.2 hm0 with ⟨t, ht⟩
        refine ⟨t ++ ((", ") ++ ("(" ++ joinSep (", ") (phSeq k (1 + m * k)) ++ ")")).data, ?_⟩
        rw [String.append_assoc]
        exact data_append_head _ ht

theorem joinSep_ident_hnd (L : List String) :
    HeadNotDigitS (joinSep (", ") (L.map (fun c => ident (toSnakeCase c)))) := by
  cases L with
  | nil => exact hndS_empty
  | cons c cs =>
    rw [List.map_cons]
    rcases joinSep_head_of_head (ident_data (toSnakeCase c)) with ⟨t, ht⟩
    exact hndS_of_data ht (by decide)

theorem retCols_noDollar {ret : Option JsVal}
    (h : (match ret with
      | some (.arr xs) => xs.all (fun c => noDollar (strOf c))
      | some v => noDollar (strOf v)
      | none => true) = true) :
    ∀ c ∈ retCols ret, noDollar c = true := by
  intro c hc
  cases ret with
  | none => simp [retCols] at hc
  | some v =>
    cases v with
    | arr xs =>
      simp only [retCols, List.mem_map] at hc
      rcases hc with ⟨w, hw, rfl⟩
      exact List.all_eq_true.mp h w hw
    | null => simp [retCols] at hc; subst hc; exact h
    | undef => simp [retCols] at hc; subst hc; exact h
    | num n => simp [retCols] at hc; subst hc; exact h
    | str s => simp [retCols] at hc; subst hc; exact h
    | bool b => simp [retCols] at hc; subst hc; exact h
    | obj fields => simp [retCols] at hc; subst hc; exact h

theorem upsertUpdateSql_noDollar {table : String} {uc : List String}
    {pt : Option String} {ret : Option JsVal}
    (htab : noDollar table = true) (huc : uc.all noDollar = true)
    (hpt : (match pt with
      | some p => noDollar p
      | none => true) = true)
    (hret : (match ret with
      | some (.arr xs) => xs.all (fun c => noDollar (strOf c))
      | some v => noDollar (strOf v)
      | none => true) = true) :
    noDollar (upsertUpdateSql table uc pt ret) = true := by
  simp only [upsertUpdateSql]
  split
  · decide
  · apply noDollar_append
    apply noDollar_append
    apply noDollar_append (by decide)
    · apply joinSep_noDollar (by decide)
      intro t ht
      simp only [List.mem_map] at ht
      rcases ht with ⟨c, hc, rfl⟩
      have hcnd := List.all_eq_true.mp huc c hc
      exact noDollar_append (noDollar_append (ident_noDollar (toSnakeCase_noDollar hcnd))
        (by decide)) (ident_noDollar (toSnakeCase_noDollar hcnd))
    · cases pt with
      | none => exact (by decide : noDollar ("") = true)
      | some p =>
        have hpt' : noDollar p = true := hpt
        dsimp only
        split
        · apply noDollar_append
          apply noDollar_append
          apply noDollar_append (by decide)
          · exact identPath_noDollar (noDollar_append (noDollar_append htab (by decide)) hpt')
          · decide
          · exact ident_noDollar hpt'
        · decide
    · split
      · split
        · decide
        · apply noDollar_append (by decide)
          apply joinSep_noDollar (by decide)
          intro t ht
          simp only [List.mem_map] at ht
          rcases ht with ⟨c, hc, rfl⟩
          exact ident_noDollar (toSnakeCase_noDollar (retCols_noDollar hret c hc))
      · decide

theorem upsertUpdateSql_hnd (table : String) (uc : List String)
    (pt : Option String) (ret : Option JsVal) :
    HeadNotDigitS (upsertUpdateSql table uc pt ret) := by
  simp only [upsertUpdateSql]
  split
  · exact headNotDigitB_spec (by decide)
  · rw [String.append_assoc, String.append_assoc]
    exact hndS_append_left _ (by decide) (by decide)

theorem upsert_extract {table : String} {r0 : JsVal} {rest : List JsVal}
    {cc uc : List String} {pt : Option String} {ret : Option JsVal}
    (hnd : upsNoDollar table r0 cc uc pt ret = true) :
    extractPh (upsertSql table (r0 :: rest) cc uc pt ret
      (sortKeys (objKeys r0))).data =
      List.range' 1 ((r0 :: rest).length * (sortKeys (objKeys r0)).length) := by
  simp only [upsNoDollar, Bool.and_eq_true] at hnd
  obtain ⟨⟨⟨⟨⟨htab, hkeys⟩, hcc⟩, huc⟩, hpt⟩, hret⟩ := hnd
  have hcolsnd : ∀ c ∈ sortKeys (objKeys r0), noDollar c = true := by
    intro c hc
    have hmem : c ∈ objKeys r0 := (sortKeys_perm (objKeys r0)).mem_iff.mp hc
    exact List.all_eq_true.mp hkeys c hmem
  have hJ : noDollar (joinSep (", ")
      ((sortKeys (objKeys r0)).map (fun c => ident (toSnakeCase c)))) = true := by
    apply joinSep_noDollar (by decide)
    intro t ht
    simp only [List.mem_map] at ht
    rcases ht with ⟨c, hc, rfl⟩
    exact ident_noDollar (toSnakeCase_noDollar (hcolsnd c hc))
  have hP : noDollar ("insert into " ++ identPath table ++ " (" ++
      joinSep (", ") ((sortKeys (objKeys r0)).map (fun c => ident (toSnakeCase c))) ++
      ")" ++ " values ") = true :=
    noDollar_append (noDollar_append (noDollar_append (noDollar_append
      (noDollar_append (by decide) (identPath_noDollar htab)) (by decide)) hJ)
      (by decide)) (by decide)
  have hC : noDollar (joinSep (", ") (cc.map (fun c => ident (toSnakeCase c)))) = true := by
    apply joinSep_noDollar (by decide)
    intro t ht
    simp only [List.mem_map] at ht
    rcases ht with ⟨c, hc, rfl⟩
    exact ident_noDollar (toSnakeCase_noDollar (List.all_eq_true.mp hcc c hc))
  have hG := (phRows_phExt (r0 :: rest).length (sortKeys (objKeys r0)).length).1
  have h1 := phExtS_absorb_left hP hG
  have h2 := phExtS_append_nd h1 (by decide : noDollar (" on conflict (") = true)
    (headNotDigitB_spec (by decide))
  have h3 := phExtS_append_nd h2 hC (joinSep_ident_hnd cc)
  have h4 := phExtS_append_nd h3 (by decide : noDollar (")") = true)
    (headNotDigitB_spec (by decide))
  have h5 := phExtS_append_nd h4 (upsertUpdateSql_noDollar htab huc hpt hret)
    (upsertUpdateSql_hnd table uc pt ret)
  exact phExtS_extract h5

/-- C1: for every select and every upsert compilation that returns a
QueryPayload, provided the inputs embedded into sql text are free of the
dollar character (table path, filter keys, option strings, column names —
bound values are unconstrained), the placeholder numbers appearing in the
returned sql are exactly 1..bindings.length, in order, with no gaps or
repeats, so their count equals bindings.length and the i-th binding
corresponds to the i-th placeholder in emission order. An upsert of an
empty row list never returns a payload. -/
theorem qb_C1_placeholders :
    (∀ table filters options p, selNoDollar table filters options = true →
      buildSelectQuery table filters options = .ok p →
      extractPh p.sql.data = List.range' 1 p.bindings.length) ∧
    (∀ table r0 rest cc uc pt ret p,
      upsNoDollar table r0 cc uc pt ret = true →
      buildUpsertQuery table (r0 :: rest) cc uc pt ret = .ok p →
      extractPh p.sql.data = List.range' 1 p.bindings.length) ∧
    (∀ table cc uc pt ret p, buildUpsertQuery table [] cc uc pt ret ≠ .ok p) := by
  refine ⟨buildSelectQuery_extract, ?_, ?_⟩
  · intro table r0 rest cc uc pt ret p hnd h
    by_cases hcols : sortKeys (objKeys r0) = []
    · exfalso
      have hemp : (sortKeys (objKeys r0)).isEmpty = true := by
        rw [hcols]
        rfl
      simp only [buildUpsertQuery, hemp, if_true] at h
      exact Except.noConfusion h
    · rw [buildUpsertQuery_eq table r0 rest cc uc pt ret hcols] at h
      obtain rfl := Except.ok.inj h
      have hex := @upsert_extract table r0 rest cc uc pt ret hnd
      have hlen := flatMap_cols_length (sortKeys (objKeys r0)) (r0 :: rest)
      rw [hlen]
      exact hex
  · intro table cc uc pt ret p h
    exact Except.noConfusion h

/-- Witness for C1: the worked select and upsert examples have placeholder
lists exactly 1..bindings.length. -/
theorem qb_C1_witness :
    extractPh (QueryPayload.mk (some ("public")) (some ("users"))
      ("select * from \"public\".\"users\" where \"id\" = $1") [.num 5]).sql.data =
      List.range' 1 (QueryPayload.mk (some ("public")) (some ("users"))
        ("select * from \"public\".\"users\" where \"id\" = $1") [.num 5]).bindings.length ∧
    extractPh (QueryPayload.mk (some ("public")) (some ("users"))
      ("insert into \"public\".\"users\" (\"full_name\", \"id\") values ($1, $2) on conflict (\"id\") do update set \"full_name\" = excluded.\"full_name\"")
      [.str "A", .num 1]).sql.data =
      List.range' 1 (QueryPayload.mk (some ("public")) (some ("users"))
        ("insert into \"public\".\"users\" (\"full_name\", \"id\") values ($1, $2) on conflict (\"id\") do update set \"full_name\" = excluded.\"full_name\"")
        [.str "A", .num 1]).bindings.length :=
  ⟨qb_C1_placeholders.1 ("public.users") (.obj [("id", .num 5)]) none
      (QueryPayload.mk (some ("public")) (some ("users"))
        ("select * from \"public\".\"users\" where \"id\" = $1") [.num 5])
      (by decide) (by rfl),
    qb_C1_placeholders.2.1 ("public.users") (.obj [("id", .num 1), ("fullName", .str "A")])
      [] ["id"] ["fullName"] none none
      (QueryPayload.mk (some ("public")) (some ("users"))
        ("insert into \"public\".\"users\" (\"full_name\", \"id\") values ($1, $2) on conflict (\"id\") do update set \"full_name\" = excluded.\"full_name\"")
        [.str "A", .num 1])
      (by decide) (by rfl)⟩

end QB
